import Mathlib

/-!
Verification development for the `pattern` package and its `transform`
subpackage: template-anchored pattern matching and bidirectional string
substitution.  Go strings are modelled as `List Char` (each element one
rune), Go maps with string keys as association lists whose operations
mirror map lookup, insertion and in-place update, and fallible Go
functions as `Except`-valued Lean functions.  The regular-expression
engine (Go `regexp` / regexp syntax package) is an external collaborator
of the repository; it is modelled below by a small abstract syntax tree
covering the fragment of syntax the repository uses, with the engine's
leftmost-first (Perl-style) backtracking order made explicit by
enumerating candidate matches in backtracking order.
-/

namespace PatternPkg

/-- A Go string, one list element per rune. -/
abbrev Str := List Char

instance {ε α : Type} [DecidableEq ε] [DecidableEq α] : DecidableEq (Except ε α) :=
  fun a b =>
    match a, b with
    | .ok x, .ok y =>
      if h : x = y then isTrue (by rw [h]) else isFalse (by intro hc; cases hc; exact h rfl)
    | .error x, .error y =>
      if h : x = y then isTrue (by rw [h]) else isFalse (by intro hc; cases hc; exact h rfl)
    | .ok _, .error _ => isFalse (by intro hc; cases hc)
    | .error _, .ok _ => isFalse (by intro hc; cases hc)

/-- Convert a Lean string literal to the model string type. -/
def lc (s : String) : Str := s.toList

/-- Errors produced by the package, one constructor per distinct error
shape in the Go source (`parseError` values, `ErrNoMatch`,
`fmt.Errorf` messages, `ErrNotReversible`). -/
inductive PatErr
  | parseErr (pos : Nat) (msg : String)
  | noMatch
  | unknownWord (name : Str)
  | noBinding (name : Str)
  | invalidExpr (name : Str)
  | missingBinding (name : Str)
  | unsupported (msg : String)
  | notReversible
  deriving Repr, DecidableEq

/-- A Bind associates a pattern word name with a matching expression
(struct `Bind` in pattern.go). -/
structure Bind where
  name : Str
  expr : Str
  deriving Repr, DecidableEq

/-- Word runes permitted inside a pattern word (`isWordRune` in
pattern.go). -/
def isWordRune (c : Char) : Bool :=
  c = '_' || c = '-' || c = '+' || c = '/' || c = ':' || c = '=' || c = '#' ||
  (('0' ≤ c && c ≤ '9') || ('a' ≤ c && c ≤ 'z') || ('A' ≤ c && c ≤ 'Z'))

/-- Lexer state of `parse` in pattern.go: in literal text, after `$`,
or inside a pattern word. -/
inductive LexSt
  | free
  | dollar
  | word
  deriving Repr, DecidableEq

/-- The body of the `parse` lexer loop in pattern.go, recursing over the
remaining input.  `start` is the offset of the most recent `$`, `i` the
current offset, `buf` the current token, `lit` and `pat` the
accumulated literals and pattern-word names. -/
def parseLoop : Str → LexSt → Nat → Nat → Str → List Str → List Str →
    Except PatErr (List Str × List Str)
  | [], st, start, _, buf, lit, pat =>
    let lit2 := if buf.length > 0 then lit ++ [buf] else lit
    match st with
    | .dollar => .error (.parseErr start "incomplete escape")
    | .word => .error (.parseErr start "incomplete pattern word")
    | .free => .ok (lit2, pat)
  | c :: rest, st, start, i, buf, lit, pat =>
    match st with
    | .free =>
      if c = '$' then parseLoop rest .dollar i (i + 1) buf lit pat
      else parseLoop rest .free start (i + 1) (buf ++ [c]) lit pat
    | .dollar =>
      if c = '$' then parseLoop rest .free start (i + 1) (buf ++ [c]) lit pat
      else if c = '{' then parseLoop rest .word start (i + 1) [] (lit ++ [buf]) pat
      else .error (.parseErr i "wanted dollar or open brace")
    | .word =>
      if c = '}' then
        if buf.length = 0 then .error (.parseErr start "empty pattern word")
        else parseLoop rest .free start (i + 1) [] lit (pat ++ [buf])
      else if isWordRune c then parseLoop rest .word start (i + 1) (buf ++ [c]) lit pat
      else .error (.parseErr i "invalid name letter")

/-- The template grammar checker `parse` in pattern.go: splits a
template into a slice of literals and a corresponding slice of pattern
labels. -/
def parseT (s : Str) : Except PatErr (List Str × List Str) :=
  parseLoop s .free 0 0 [] [] []

/-- Association-list lookup, modelling Go map read `m[k]` with its
comma-ok form. -/
def rulesGet? : List (Str × Str) → Str → Option Str
  | [], _ => none
  | (k, v) :: rest, n => if k = n then some v else rulesGet? rest n

/-- Key-membership of a Go map. -/
def rulesHas (m : List (Str × Str)) (n : Str) : Bool :=
  (rulesGet? m n).isSome

/-- Go map update of an existing key `m[k] = v` (key known present). -/
def rulesSet : List (Str × Str) → Str → Str → List (Str × Str)
  | [], _, _ => []
  | (k, v) :: rest, n, e =>
    if k = n then (k, e) :: rest else (k, v) :: rulesSet rest n e

/-- Go map assignment `m[k] = v`: update when present, insert
otherwise. -/
def rulesPut (m : List (Str × Str)) (n e : Str) : List (Str × Str) :=
  if rulesHas m n then rulesSet m n e else m ++ [(n, e)]

/-- A compiled pattern (struct `P` in pattern.go): even indexes of
`parts` are literal fragments, odd indexes are pattern-word names;
`rules` maps each pattern word to its bound expression.  The lazily
compiled regexp cache is not modelled: compilation is re-run at each
use, which is observationally equivalent. -/
structure P where
  parts : List Str
  template : Str
  rules : List (Str × Str)
  deriving Repr, DecidableEq

/-- The interleaving loop shared by `Parse` and `Derive` in pattern.go:
`for i, part := range lit { parts = append(parts, part); if i <
len(pat) { parts = append(parts, pat[i]) } }`. -/
def interleave : List Str → List Str → List Str
  | [], _ => []
  | l :: ls, [] => l :: interleave ls []
  | l :: ls, p :: ps => l :: p :: interleave ls ps

/-- Rule-table seeding done by `Parse`: `rules[pat[i]] = ""` for each
pattern label, in order. -/
def seedRules (pat : List Str) : List (Str × Str) :=
  pat.foldl (fun m n => rulesPut m n []) []

/-- Method `bind` of `*P` in pattern.go: reports whether `n` is a
pattern word of `p` and, if so, binds its matching expression to `e`
(modelled functionally: `none` plays the `false` return). -/
def PBind (p : P) (n e : Str) : Option P :=
  if rulesHas p.rules n then some { p with rules := rulesSet p.rules n e }
  else none

/-- The binding loop at the end of `Parse`: the first name that is not
a pattern word aborts with the unknown-pattern-word error. -/
def bindAll : P → List Bind → Except PatErr P
  | p, [] => .ok p
  | p, b :: rest =>
    match PBind p b.name b.expr with
    | none => .error (.unknownWord b.name)
    | some p2 => bindAll p2 rest

/-- Function `Parse` in pattern.go: parse a template and bind the given
pattern variables to the corresponding expressions. -/
def PParse (s : Str) (binds : List Bind) : Except PatErr P := do
  let (lit, pat) ← parseT s
  bindAll { parts := interleave lit pat, template := s, rules := seedRules pat } binds

/-- Derived rule table built by `Derive`: `out.rules[pat[i]] =
p.rules[pat[i]]` for each label (a missing key would read the zero
value, matching Go map semantics). -/
def deriveRules (src : List (Str × Str)) (pat : List Str) : List (Str × Str) :=
  pat.foldl (fun m n => rulesPut m n ((rulesGet? src n).getD [])) []

/-- Method `Derive` of `*P` in pattern.go: a new compiled pattern with
the same pattern words but template `s`; any pattern word of `s`
unknown to `p` is an error. -/
def PDerive (p : P) (s : Str) : Except PatErr P := do
  let (lit, pat) ← parseT s
  match pat.find? (fun n => ! rulesHas p.rules n) with
  | some n => .error (.unknownWord n)
  | none =>
    .ok { parts := interleave lit pat, template := s,
          rules := deriveRules p.rules pat }

/-- Elements of `parts` at odd indexes (the pattern-word names), in
order: the iteration `for i := 1; i < len(p.parts); i += 2`. -/
def oddParts : List Str → List Str
  | [] => []
  | [_] => []
  | _ :: b :: rest => b :: oddParts rest

/-- Method `Binds` of `*P` in pattern.go: the bindings of `p` in parsed
order, populated with the currently bound expression strings. -/
def PBinds (p : P) : List Bind :=
  (oddParts p.parts).map fun n => ⟨n, (rulesGet? p.rules n).getD []⟩

/-- The per-name value queues `sub` built at the top of `Apply`:
`sub[bind.Name] = append(sub[bind.Name], bind.Expr)`. -/
def subOf (binds : List Bind) : Str → List Str :=
  fun n => (binds.filter fun b => b.name = n).map Bind.expr

/-- The rendering loop of `Apply` in pattern.go.  `isLit` tracks the
index parity (`i%2 == 0`); a placeholder consumes the head of its
queue and pops it only when more values remain, so the last value is
repeated once the queue would empty. -/
def applyLoop : List Str → (Str → List Str) → Bool → Except PatErr Str
  | [], _, _ => .ok []
  | part :: rest, sub, isLit =>
    if isLit then (applyLoop rest sub false).map (part ++ ·)
    else
      match sub part with
      | [] => .error (.missingBinding part)
      | v :: vs =>
        let sub2 := if vs.isEmpty then sub
                    else fun n => if n = part then vs else sub n
        (applyLoop rest sub2 true).map (v ++ ·)

/-- Method `Apply` of `*P` in pattern.go: applies a list of bindings to
the pattern template to produce a new string. -/
def PApply (p : P) (binds : List Bind) : Except PatErr Str :=
  applyLoop p.parts (subOf binds) true

/-- Specification-level rendering: the value substituted for the k-th
occurrence (0-based) of a name is the k-th supplied value for that
name, clamped to the last one when the supplied values run out.
`occ` counts the occurrences of each name already rendered. -/
def applyIdx : List Str → (Str → Nat) → List Bind → Bool → Except PatErr Str
  | [], _, _, _ => .ok []
  | part :: rest, occ, binds, isLit =>
    if isLit then (applyIdx rest occ binds false).map (part ++ ·)
    else
      let l := subOf binds part
      if l.isEmpty then .error (.missingBinding part)
      else
        let value := l.getD (min (occ part) (l.length - 1)) []
        let occ2 := fun n => if n = part then occ part + 1 else occ n
        (applyIdx rest occ2 binds true).map (value ++ ·)

/-! ## The regular-expression engine

The repository delegates matching to the host regular-expression
engine, compiling each rule string with Perl syntax and matching with
leftmost-first (backtracking-order) semantics.  The model below
implements the fragment of that syntax used by the repository:
literal characters, the escapes for word and digit classes and for
metacharacters, the any-character dot, capturing groups, alternation,
and the `*`, `+` and `?` repetitions.  Matching is modelled by
enumerating the candidate end positions of a match in exactly the
engine's backtracking preference order, so that taking the head of the
enumeration yields the engine's match. -/

/-- Abstract syntax of the supported regular-expression fragment.
`grp` is a capturing group carrying the engine's group index (its name
is tracked separately on placeholder wrappers: inner groups are
stripped of names by `stripNames`). -/
inductive Regex
  | eps
  | char (c : Char)
  | wordC
  | digitC
  | dotC
  | alt (r1 r2 : Regex)
  | cat (r1 r2 : Regex)
  | star (r : Regex)
  | grp (idx : Nat) (r : Regex)
  deriving Repr, DecidableEq

/-- Group indexes occurring in a regex, in preorder (the order group
parentheses open, which is the engine's numbering order). -/
def regexIdxs : Regex → List Nat
  | .eps | .char _ | .wordC | .digitC | .dotC => []
  | .alt r1 r2 => regexIdxs r1 ++ regexIdxs r2
  | .cat r1 r2 => regexIdxs r1 ++ regexIdxs r2
  | .star r => regexIdxs r
  | .grp i r => i :: regexIdxs r

/-- Word-class membership of the engine (`\w` is `[0-9A-Za-z_]`). -/
def isWordChar (c : Char) : Bool :=
  ('0' ≤ c && c ≤ '9') || ('a' ≤ c && c ≤ 'z') || ('A' ≤ c && c ≤ 'Z') || c = '_'

/-- Digit-class membership (`\d`). -/
def isDigitChar (c : Char) : Bool := '0' ≤ c && c ≤ '9'

/-- Recursive-descent parse of one postfix-free atom; returns the atom,
the remaining input and the next free group index.  `pAlt` is entered
through `regexParseLoop`. -/
def regexMeta (c : Char) : Bool :=
  c = '\\' || c = '(' || c = ')' || c = '|' || c = '*' || c = '+' ||
  c = '?' || c = '[' || c = ']' || c = '{' || c = '}' || c = '^' || c = '$' || c = '.'

/-- Postfix repetition operators applied to the preceding atom:
greedy `*`, `+` (one then a star) and `?` (prefer present). -/
def pPostfix : Nat → Regex → Str → (Regex × Str)
  | 0, a, s => (a, s)
  | fuel + 1, a, s =>
    match s with
    | [] => (a, [])
    | c :: s1 =>
      if c = '*' then pPostfix fuel (.star a) s1
      else if c = '+' then pPostfix fuel (.cat a (.star a)) s1
      else if c = '?' then pPostfix fuel (.alt a .eps) s1
      else (a, c :: s1)

/-- Grammar level of the recursive-descent regex reader: alternation,
concatenation, or a single atom. -/
inductive RLevel
  | alt
  | cat
  | atom
  deriving Repr, DecidableEq

/-- Recursive-descent reader for the supported regex fragment.  At the
alternation level it reads `cat ('|' cat)*`; at the concatenation
level a sequence of postfix-repeated atoms ending at end-of-input,
`)` or `|`; an atom is a capturing group, an escape or a literal
character, with unsupported constructs rejected.  Returns the
expression, the remaining input and the next free group index. -/
def rparse : Nat → RLevel → Str → Nat → Except PatErr (Regex × Str × Nat)
  | 0, _, _, _ => .error (.unsupported "regex fuel")
  | fuel + 1, .alt, s, g => do
    let (r1, s1, g1) ← rparse fuel .cat s g
    match s1 with
    | '|' :: s2 => do
      let (r2, s3, g3) ← rparse fuel .alt s2 g1
      pure (.alt r1 r2, s3, g3)
    | _ => pure (r1, s1, g1)
  | fuel + 1, .cat, s, g =>
    match s with
    | [] => pure (.eps, [], g)
    | ')' :: _ => pure (.eps, s, g)
    | '|' :: _ => pure (.eps, s, g)
    | _ => do
      let (a, s1, g1) ← rparse fuel .atom s g
      let (a2, s2) := pPostfix (fuel + 1) a s1
      let (r, s3, g3) ← rparse fuel .cat s2 g1
      pure (.cat a2 r, s3, g3)
  | fuel + 1, .atom, s, g =>
    match s with
    | [] => .error (.unsupported "regex atom at end")
    | '(' :: s1 => do
      let (r, s2, g2) ← rparse fuel .alt s1 (g + 1)
      match s2 with
      | ')' :: s3 => pure (.grp g r, s3, g2)
      | _ => .error (.unsupported "missing close paren")
    | '\\' :: c :: s1 =>
      if c = 'w' then pure (.wordC, s1, g)
      else if c = 'd' then pure (.digitC, s1, g)
      else if regexMeta c then pure (.char c, s1, g)
      else .error (.unsupported "regex escape")
    | '\\' :: [] => .error (.unsupported "trailing backslash")
    | '.' :: s1 => pure (.dotC, s1, g)
    | c :: s1 =>
      if regexMeta c then .error (.unsupported "regex metacharacter")
      else pure (.char c, s1, g)

/-- Parse a rule string as a regular expression, with group numbering
starting at `g` (the wrapper group of the placeholder has index
`g - 1`).  Models the engine's expression parser on the supported
fragment. -/
def regexParse (s : Str) (g : Nat) : Except PatErr (Regex × Nat) := do
  let (r, rest, g2) ← rparse (2 * s.length + 8) .alt s g
  match rest with
  | [] => pure (r, g2)
  | _ => .error (.unsupported "trailing regex input")

/-- Capture map: group index to the span (start, end) it last
matched. -/
abbrev Caps := List (Nat × (Nat × Nat))

/-- Lookup of a capture span. -/
def capsGet? : Caps → Nat → Option (Nat × Nat)
  | [], _ => none
  | (k, v) :: rest, n => if k = n then some v else capsGet? rest n

/-- Record a capture span, overwriting an earlier span of the same
group (a later repetition of a group overwrites its capture). -/
def capsPut : Caps → Nat → (Nat × Nat) → Caps
  | [], n, v => [(n, v)]
  | (k, w) :: rest, n, v =>
    if k = n then (k, v) :: rest else (k, w) :: capsPut rest n v

/-- Enumerate the end positions (with captures) of matches of `r`
starting at `pos` in `s`, in the engine's backtracking preference
order: first alternatives before later ones, longer repetitions before
shorter (greedy), a star iteration must make progress.  The head of
the enumeration is the match the engine reports.  `fuel` bounds the
recursion; every recursive call decreases it. -/
def exits (s : Str) : Nat → Regex → Nat → Caps → List (Nat × Caps)
  | 0, _, _, _ => []
  | fuel + 1, re, pos, caps =>
    match re with
    | .eps => [(pos, caps)]
    | .char c => if s.getD pos ' ' = c ∧ pos < s.length then [(pos + 1, caps)] else []
    | .wordC => if isWordChar (s.getD pos ' ') ∧ pos < s.length then [(pos + 1, caps)] else []
    | .digitC => if isDigitChar (s.getD pos ' ') ∧ pos < s.length then [(pos + 1, caps)] else []
    | .dotC => if s.getD pos ' ' ≠ '\n' ∧ pos < s.length then [(pos + 1, caps)] else []
    | .alt r1 r2 => exits s fuel r1 pos caps ++ exits s fuel r2 pos caps
    | .cat r1 r2 =>
      (exits s fuel r1 pos caps).flatMap fun ec => exits s fuel r2 ec.1 ec.2
    | .star r =>
      ((exits s fuel r pos caps).flatMap fun ec =>
        if pos < ec.1 then exits s fuel (.star r) ec.1 ec.2 else []) ++ [(pos, caps)]
    | .grp i r =>
      (exits s fuel r pos caps).map fun ec => (ec.1, capsPut ec.2 i (pos, ec.1))

/-- One element of the compiled matcher: a literal character (from a
quoted literal fragment) or a placeholder's named capturing group
wrapping its rule's expression. -/
inductive CItem
  | lit (c : Char)
  | grp (idx : Nat) (name : Str) (r : Regex)
  deriving Repr, DecidableEq

/-- Group indexes contributed by one item. -/
def itemIdxs : CItem → List Nat
  | .lit _ => []
  | .grp i _ r => i :: regexIdxs r

/-- All group indexes of a compiled matcher. -/
def itemsIdxs (items : List CItem) : List Nat :=
  items.flatMap itemIdxs

/-- The capture groups of the compiled matcher in index order
(`SubexpNames` without the leading whole-match entry): placeholder
wrappers carry their name, inner groups are nameless after
`stripNames`. -/
def itemsGroups : List CItem → List (Nat × Str)
  | [] => []
  | .lit _ :: rest => itemsGroups rest
  | .grp i n r :: rest => (i, n) :: (regexIdxs r).map (·, []) ++ itemsGroups rest

/-- Run the concatenated compiled matcher from `pos`: a literal must
match itself, a placeholder group records the span its rule matched.
Enumeration order is the engine's backtracking order, as in
`exits`. -/
def runItems (s : Str) (fuel : Nat) : List CItem → Nat → Caps → List (Nat × Caps)
  | [], pos, caps => [(pos, caps)]
  | .lit c :: rest, pos, caps =>
    if s.getD pos ' ' = c ∧ pos < s.length then runItems s fuel rest (pos + 1) caps else []
  | .grp i _ r :: rest, pos, caps =>
    (exits s fuel r pos caps).flatMap fun ec =>
      runItems s fuel rest ec.1 (capsPut ec.2 i (pos, ec.1))

/-- Structural size of a regex, used to budget matcher fuel. -/
def regexSize : Regex → Nat
  | .eps | .char _ | .wordC | .digitC | .dotC => 1
  | .alt r1 r2 => regexSize r1 + regexSize r2 + 1
  | .cat r1 r2 => regexSize r1 + regexSize r2 + 1
  | .star r => regexSize r + 1
  | .grp _ r => regexSize r + 1

/-- Fuel sufficient for any match attempt of the compiled matcher over
`s`: each star re-entry consumes at least one character, so recursion
depth is bounded by the regex size times the input length. -/
def stdFuel (s : Str) (items : List CItem) : Nat :=
  (s.length + 2) * ((items.map fun it =>
    match it with
    | .lit _ => 1
    | .grp _ _ r => regexSize r + 1).sum + 2)

/-- The compile loop of `compileRegexp` in pattern.go: literal parts
are quoted (modelled by emitting their characters as literal items),
each pattern word's rule is parsed and wrapped in a named capturing
group; a pattern word missing from the rule table is the no-binding
error, an unparsable rule the invalid-expression error.  `g` is the
next free group index, `isLit` the index parity. -/
def compileLoop (rules : List (Str × Str)) :
    List Str → Bool → Nat → Except PatErr (List CItem)
  | [], _, _ => .ok []
  | part :: rest, isLit, g =>
    if isLit then do
      let tail ← compileLoop rules rest false g
      pure (part.map CItem.lit ++ tail)
    else
      match rulesGet? rules part with
      | none => .error (.noBinding part)
      | some rule =>
        match regexParse rule (g + 1) with
        | .error _ => .error (.invalidExpr part)
        | .ok (r, g2) => do
          let tail ← compileLoop rules rest true g2
          pure (CItem.grp g part r :: tail)

/-- Compile a pattern's matcher (`compileRegexp` in pattern.go, with
the final host-engine compilation step implicit in the `CItem`
representation).  Group numbering starts at 1; index 0 is the whole
match. -/
def compileItems (p : P) : Except PatErr (List CItem) :=
  compileLoop p.rules p.parts true 1

/-- Scan for the leftmost match: try `runItems` at each start offset
from `pos` upward and report the first offset where a match exists,
with its backtracking-first end position and captures.  This is
`FindStringSubmatchIndex` of the engine. -/
def findLoop (s : Str) (items : List CItem) : Nat → Nat → Option (Nat × Nat × Caps)
  | 0, _ => none
  | count + 1, pos =>
    match runItems s (stdFuel s items) items pos [] with
    | ec :: _ => some (pos, ec.1, ec.2)
    | [] => if pos < s.length then findLoop s items count (pos + 1) else none

/-- Leftmost-first match search over all start offsets. -/
def findIdx (s : Str) (items : List CItem) : Option (Nat × Nat × Caps) :=
  findLoop s items (s.length + 1) 0

/-- The substring of `s` between offsets `a` (inclusive) and `b`
(exclusive), as Go `s[a:b]`. -/
def slice (s : Str) (a b : Nat) : Str :=
  (s.drop a).take (b - a)

/-- Function `bindMatches` in pattern.go: extract bindings from the
needle for the named capture groups, in group-index order, skipping
nameless groups and groups that did not participate. -/
def bindMatches (items : List CItem) (caps : Caps) (s : Str) : List Bind :=
  (itemsGroups items).filterMap fun g =>
    if g.2 = [] then none
    else (capsGet? caps g.1).map fun ab =>
      ⟨g.2, slice s ab.1 ab.2⟩

/-- Group indexes of a compiled matcher never collide across items:
each placeholder group's index is absent from everything compiled
after it (the compiler numbers groups strictly increasingly). -/
def ItemsSane : List CItem → Prop
  | [] => True
  | .lit _ :: rest => ItemsSane rest
  | .grp i _ _ :: rest => i ∉ itemsIdxs rest ∧ ItemsSane rest

/-- Reconstruction of the text a compiled matcher matched, from the
final captures: literals contribute themselves and each placeholder
group the slice its capture recorded; `none` when some group has no
recorded capture. -/
def itemsText (s : Str) (caps : Caps) : List CItem → Option Str
  | [] => some []
  | .lit ch :: rest => (itemsText s caps rest).map (ch :: ·)
  | .grp i _ _ :: rest =>
    match capsGet? caps i with
    | none => none
    | some ab => (itemsText s caps rest).map (slice s ab.1 ab.2 ++ ·)

/-- Method `Match` of `*P` in pattern.go: compile, find the match, and
succeed only when the match spans the whole needle; otherwise
`ErrNoMatch`. -/
def PMatch (p : P) (needle : Str) : Except PatErr (List Bind) := do
  let items ← compileItems p
  match findIdx needle items with
  | none => .error .noMatch
  | some m =>
    if m.1 = 0 ∧ m.2.1 = needle.length
    then .ok (bindMatches items m.2.2 needle)
    else .error .noMatch

/-- Does any match of the compiled matcher starting at offset 0 span
the entire needle?  This is the semantic statement that the compiled
expression matches the entire needle (independent of the engine's
leftmost-first preference). -/
def fullMatchB (needle : Str) (items : List CItem) : Bool :=
  (runItems needle (stdFuel needle items) items 0 []).any fun ec =>
    ec.1 = needle.length

/-- The iteration loop of the engine's find-all-matches (Go
`allMatches`): repeatedly find the leftmost match at or after `pos`;
an empty match advances the scan position by one rune and is dropped
when it ends where the previous match ended; a non-empty match resumes
at its end. -/
def findAllLoop (s : Str) (items : List CItem) :
    Nat → Nat → Option Nat → List (Nat × Nat × Caps)
  | 0, _, _ => []
  | count + 1, pos, prevEnd =>
    if pos > s.length then []
    else
      match findLoop s items (s.length + 1 - pos) pos with
      | none => []
      | some m =>
        if m.2.1 = m.1 then
          let rest := findAllLoop s items count (pos + 1) (some m.2.1)
          if some m.1 = prevEnd then rest else m :: rest
        else m :: findAllLoop s items count m.2.1 (some m.2.1)

/-- All non-overlapping matches of the compiled matcher, left to
right (`FindAllStringSubmatchIndex` with `n = -1`). -/
def findAllIdx (s : Str) (items : List CItem) : List (Nat × Nat × Caps) :=
  findAllLoop s items (s.length + 2) 0 none

/-- The list of `(start, end, binds)` triples delivered by method
`Search` of `*P` in pattern.go to its callback, in order. -/
def PSearchList (p : P) (needle : Str) :
    Except PatErr (List (Nat × Nat × List Bind)) := do
  let items ← compileItems p
  pure ((findAllIdx needle items).map fun m =>
    (m.1, m.2.1, bindMatches items m.2.2 needle))

/-- The placeholder names looked up while rendering `parts` with the
given starting parity (`true` when the next part is a literal): the
parts at odd positions relative to the start. -/
def phNames : List Str → Bool → List Str
  | [], _ => []
  | _ :: rest, true => phNames rest false
  | part :: rest, false => part :: phNames rest true

/-- Tally increment `na[bind.Name]++` in `reversible`
(transform/transform.go), with Go map insert-on-missing semantics. -/
def tallyInc : List (Str × Int) → Str → List (Str × Int)
  | [], n => [(n, 1)]
  | (k, v) :: rest, n =>
    if k = n then (k, v + 1) :: rest else (k, v) :: tallyInc rest n

/-- Tally lookup. -/
def tallyGet? : List (Str × Int) → Str → Option Int
  | [], _ => none
  | (k, v) :: rest, n => if k = n then some v else tallyGet? rest n

/-- Tally update of an existing key. -/
def tallySet : List (Str × Int) → Str → Int → List (Str × Int)
  | [], _, _ => []
  | (k, v) :: rest, n, w =>
    if k = n then (k, w) :: rest else (k, v) :: tallySet rest n w

/-- The consuming loop of `reversible`: for each binding of `b`,
the name must be present in the tally and its count must not go
negative after the decrement. -/
def consume : List (Str × Int) → List Bind → Option (List (Str × Int))
  | m, [] => some m
  | m, b :: rest =>
    match tallyGet? m b.name with
    | none => none
    | some v =>
      if v - 1 < 0 then none else consume (tallySet m b.name (v - 1)) rest

/-- Function `reversible` in transform/transform.go: the two binding
lists are mutually saturating (each name bound equally often on both
sides). -/
def reversible (a b : List Bind) : Bool :=
  match consume (a.foldl (fun m bd => tallyInc m bd.name) []) b with
  | none => false
  | some m => m.all fun e => e.2 = 0

/-- A transformation between two patterns (struct `T`, both in
transform/transform.go and in the pattern-package transform module):
applying it matches the left pattern and applies the resulting
bindings to the right pattern. -/
structure T where
  lhs : P
  rhs : P
  deriving Repr, DecidableEq

/-- Function `New` in transform/transform.go: parse the left template
with the bindings, then derive the right pattern from it. -/
def TNew (lhs rhs : Str) (binds : List Bind) : Except PatErr T := do
  let lp ← PParse lhs binds
  let rp ← PDerive lp rhs
  pure ⟨lp, rp⟩

/-- Method `Apply` of `*T`: match the needle against the left pattern
and apply the resulting bindings to the right pattern. -/
def TApply (t : T) (needle : Str) : Except PatErr Str := do
  let ms ← PMatch t.lhs needle
  PApply t.rhs ms

/-- Method `Reverse` of `*T`: the transformation with left and right
patterns exchanged. -/
def TReverse (t : T) : T := ⟨t.rhs, t.lhs⟩

/-- Method `Replace` of `*T` in transform/transform.go: drive the left
pattern's `Search`, writing the text between the previous match and
this one followed by the right pattern's rendering of the match's
bindings; note that the loop body is all the method writes. -/
def TReplace (t : T) (needle : Str) : Except PatErr Str := do
  let ms ← PSearchList t.lhs needle
  let out ← ms.foldlM (fun (acc : Str × Nat) m => do
      let rendered ← PApply t.rhs m.2.2
      pure (acc.1 ++ ((needle.drop acc.2).take (m.1 - acc.2)) ++ rendered, m.2.1))
    (([] : Str), 0)
  pure out.1

/-- Specification-level replace: as `TReplace`, but with the unmatched
suffix of the needle after the final match appended to the output. -/
def TReplaceSpec (t : T) (needle : Str) : Except PatErr Str := do
  let ms ← PSearchList t.lhs needle
  let out ← ms.foldlM (fun (acc : Str × Nat) m => do
      let rendered ← PApply t.rhs m.2.2
      pure (acc.1 ++ ((needle.drop acc.2).take (m.1 - acc.2)) ++ rendered, m.2.1))
    (([] : Str), 0)
  pure (out.1 ++ needle.drop out.2)

/-- Function `NewTransform` in the pattern-package transform module: as
`TNew`, but a derivation failure that is not a parse error, or a
failure of the `reversible` check over the two patterns' bindings,
is reported as `ErrNotReversible`. -/
def NewTransform (lhs rhs : Str) (binds : List Bind) : Except PatErr T := do
  let lp ← PParse lhs binds
  match PDerive lp rhs with
  | .error (.parseErr i m) => .error (.parseErr i m)
  | .error _ => .error .notReversible
  | .ok rp =>
    if reversible (PBinds lp) (PBinds rp) then .ok ⟨lp, rp⟩
    else .error .notReversible

/-! ## Concrete instances used by the claims -/

/-- The bindings of the transform example: `host`, `user` and `repo`. -/
def gitBinds : List Bind :=
  [⟨lc "host", lc "\\w+(\\.\\w+)*"⟩, ⟨lc "user", lc "\\w+"⟩, ⟨lc "repo", lc "\\w+"⟩]

/-- Left template of the transform example. -/
def gitLhs : Str := lc "git@${host}:${user}/${repo}.git"

/-- Right template of the transform example. -/
def gitRhs : Str := lc "http://${host}/${user}/${repo}"

end PatternPkg

namespace PatternPkg

/-! ## Theorems -/

/-! ### Shape of the parsed fragment sequence -/

/-- Length bookkeeping of the `parse` lexer loop: in the free and
seen-dollar states the literals and labels are balanced, inside a
pattern word the literals lead by one; on success the returned
literals list has the labels' length or one more. -/
theorem parseLoop_len : ∀ (s : Str) (st : LexSt) (start i : Nat) (buf : Str)
    (lit pat : List Str) (out : List Str × List Str),
    parseLoop s st start i buf lit pat = .ok out →
    lit.length = pat.length + (if st = .word then 1 else 0) →
    out.2.length ≤ out.1.length ∧ out.1.length ≤ out.2.length + 1 := by
  intro s
  induction s with
  | nil =>
    intro st start i buf lit pat out h hinv
    cases st with
    | dollar => simp [parseLoop] at h
    | word => simp [parseLoop] at h
    | free =>
      have e : parseLoop [] .free start i buf lit pat =
          .ok (if buf.length > 0 then lit ++ [buf] else lit, pat) := rfl
      rw [e] at h
      injection h with h2
      subst h2
      simp at hinv
      split <;> simp <;> omega
  | cons c rest ih =>
    intro st start i buf lit pat out h hinv
    cases st with
    | free =>
      simp [parseLoop] at h
      split at h
      · exact ih _ _ _ _ _ _ _ h (by simpa using hinv)
      · exact ih _ _ _ _ _ _ _ h (by simpa using hinv)
    | dollar =>
      simp [parseLoop] at h
      split at h
      · exact ih _ _ _ _ _ _ _ h (by simpa using hinv)
      · split at h
        · refine ih _ _ _ _ _ _ _ h ?_
          simp at hinv ⊢
          omega
        · exact absurd h (by simp)
    | word =>
      simp [parseLoop] at h
      split at h
      · split at h
        · exact absurd h (by simp)
        · refine ih _ _ _ _ _ _ _ h ?_
          simp at hinv ⊢
          omega
      · split at h
        · exact ih _ _ _ _ _ _ _ h (by simpa using hinv)
        · exact absurd h (by simp)

/-- On success, `parse` returns at least as many literals as labels,
and at most one more. -/
theorem parseT_len (s : Str) (lit pat : List Str)
    (h : parseT s = .ok (lit, pat)) :
    pat.length ≤ lit.length ∧ lit.length ≤ pat.length + 1 :=
  parseLoop_len s .free 0 0 [] [] [] (lit, pat) h (by simp)

/-- When the literals and labels interleave exhaustively (literal
count equal to label count or one more), position `2*i` of the
assembled fragment sequence is the i-th literal and position `2*i+1`
the i-th label: fragments alternate, beginning with a literal. -/
theorem interleave_get : ∀ (lit pat : List Str),
    pat.length ≤ lit.length → lit.length ≤ pat.length + 1 →
    ∀ i : Nat, (interleave lit pat).get? (2 * i) = lit.get? i ∧
      (interleave lit pat).get? (2 * i + 1) = pat.get? i := by
  intro lit
  induction lit with
  | nil =>
    intro pat h1 h2 i
    have : pat = [] := by
      cases pat <;> simp_all
    subst this
    simp [interleave]
  | cons l ls ih =>
    intro pat h1 h2 i
    cases pat with
    | nil =>
      have : ls = [] := by
        cases ls <;> simp_all
      subst this
      cases i with
      | zero => simp [interleave]
      | succ n =>
        simp [interleave]
        omega
    | cons p ps =>
      cases i with
      | zero => simp [interleave]
      | succ j =>
        have h3 : ps.length ≤ ls.length := by simp at h1; omega
        have h4 : ls.length ≤ ps.length + 1 := by simp at h2; omega
        have := ih ps h3 h4 j
        simp only [interleave]
        constructor
        · have e : 2 * (j + 1) = (2 * j + 1) + 1 := by omega
          rw [e]
          simpa using this.1
        · have e : 2 * (j + 1) + 1 = (2 * j + 1) + 1 + 1 := by omega
          rw [e]
          simpa using this.2

/-- Claim C7: for every template accepted by the parser, the literals
list has exactly one more element than the placeholder-names list or
the two have equal counts (the trailing empty literal then being
implicit), the assembled fragment sequence alternates literal and
placeholder kinds beginning with a (possibly empty) literal, and
parsing a template that is a single placeholder yields that
placeholder with empty literals around it. -/
theorem claim_C7 :
    (∀ (s : Str) (lit pat : List Str), parseT s = .ok (lit, pat) →
      (pat.length ≤ lit.length ∧ lit.length ≤ pat.length + 1) ∧
      ∀ i : Nat, (interleave lit pat).get? (2 * i) = lit.get? i ∧
        (interleave lit pat).get? (2 * i + 1) = pat.get? i) ∧
    parseT (lc "${x}") = .ok ([[]], [lc "x"]) := by
  constructor
  · intro s lit pat h
    have hl := parseT_len s lit pat h
    exact ⟨hl, interleave_get lit pat hl.1 hl.2⟩
  · decide

/-- Witness for claim C7 at the concrete template `a${b}c`. -/
theorem claim_C7_witness :
    (([lc "b"] : List Str).length ≤ ([lc "a", lc "c"] : List Str).length ∧
      ([lc "a", lc "c"] : List Str).length ≤ ([lc "b"] : List Str).length + 1) ∧
    (interleave [lc "a", lc "c"] [lc "b"]).get? 0 = some (lc "a") ∧
    (interleave [lc "a", lc "c"] [lc "b"]).get? 1 = some (lc "b") :=
  let h := claim_C7.1 (lc "a${b}c") [lc "a", lc "c"] [lc "b"] (by decide)
  ⟨h.1, by simpa using (h.2 0).1, by simpa using (h.2 0).2⟩

/-! ### Rule-table bookkeeping -/

/-- Unfolding lemma: binding an error short-circuits. -/
theorem except_bind_error {ε α β : Type} (e : ε) (f : α → Except ε β) :
    (Except.error e >>= f) = Except.error e := rfl

/-- Unfolding lemma: binding a success applies the continuation. -/
theorem except_bind_ok {ε α β : Type} (a : α) (f : α → Except ε β) :
    (Except.ok a >>= f) = f a := rfl

/-- Lookup distributes over association-list append. -/
theorem rulesGet?_append : ∀ (m1 m2 : List (Str × Str)) (n : Str),
    rulesGet? (m1 ++ m2) n =
      match rulesGet? m1 n with
      | some v => some v
      | none => rulesGet? m2 n := by
  intro m1
  induction m1 with
  | nil => intro m2 n; simp [rulesGet?]
  | cons e rest ih =>
    intro m2 n
    by_cases h : e.1 = n <;> simp [rulesGet?, h, ih]

/-- Updating an existing key maps its value and leaves other keys
unchanged. -/
theorem rulesGet?_set : ∀ (m : List (Str × Str)) (k v n : Str),
    rulesGet? (rulesSet m k v) n =
      if k = n then (rulesGet? m n).map (fun _ => v) else rulesGet? m n := by
  intro m
  induction m with
  | nil => intro k v n; simp [rulesSet, rulesGet?]
  | cons e rest ih =>
    intro k v n
    obtain ⟨ek, ev⟩ := e
    simp only [rulesSet]
    by_cases hk : ek = k
    · subst hk
      simp only [if_pos rfl, rulesGet?]
      by_cases hn : ek = n
      · subst hn; simp
      · simp [hn]
    · rw [if_neg hk]
      simp only [rulesGet?]
      by_cases hn : ek = n
      · subst hn
        have hkn : ¬ (k = ek) := fun hc => hk hc.symm
        simp [hkn]
      · simp [hn, ih]

/-- Go map assignment: afterwards the assigned key holds the assigned
value and every other key is unchanged. -/
theorem rulesGet?_put (m : List (Str × Str)) (k v n : Str) :
    rulesGet? (rulesPut m k v) n = if k = n then some v else rulesGet? m n := by
  unfold rulesPut
  by_cases hh : rulesHas m k
  · rw [if_pos hh, rulesGet?_set]
    by_cases hkn : k = n
    · subst hkn
      unfold rulesHas at hh
      cases hg : rulesGet? m k <;> simp_all
    · simp [hkn]
  · rw [if_neg hh, rulesGet?_append]
    by_cases hkn : k = n
    · subst hkn
      unfold rulesHas at hh
      cases hg : rulesGet? m k <;> simp_all [rulesGet?]
    · cases hg : rulesGet? m n <;> simp [rulesGet?, hkn]

/-- Key membership after Go map assignment. -/
theorem rulesHas_put (m : List (Str × Str)) (k v n : Str) :
    rulesHas (rulesPut m k v) n = (k = n || rulesHas m n) := by
  unfold rulesHas
  rw [rulesGet?_put]
  by_cases h : k = n <;> simp [h]

/-- Key membership after updating an existing key is unchanged. -/
theorem rulesHas_set (m : List (Str × Str)) (k v n : Str) :
    rulesHas (rulesSet m k v) n = rulesHas m n := by
  unfold rulesHas
  rw [rulesGet?_set]
  by_cases h : k = n <;> simp [h]

/-- Folding Go map assignments of every label over a table: a key is
present afterwards iff it was present before or is one of the
labels. -/
theorem foldl_put_has (f : Str → Str) : ∀ (pat : List Str)
    (m0 : List (Str × Str)) (n : Str),
    rulesHas (pat.foldl (fun m x => rulesPut m x (f x)) m0) n = true ↔
      (rulesHas m0 n = true ∨ n ∈ pat) := by
  intro pat
  induction pat with
  | nil => intro m0 n; simp
  | cons x rest ih =>
    intro m0 n
    simp only [List.foldl_cons, List.mem_cons]
    rw [ih, rulesHas_put]
    constructor
    · rintro (hx | hm)
      · rcases (by simpa using hx : x = n ∨ rulesHas m0 n = true) with h3 | h3
        · exact Or.inr (Or.inl h3.symm)
        · exact Or.inl h3
      · exact Or.inr (Or.inr hm)
    · rintro (hm | hnx | hr)
      · exact Or.inl (by simp [hm])
      · exact Or.inl (by simp [hnx])
      · exact Or.inr hr

/-- The pattern-word names of the assembled fragment sequence are
exactly the parsed labels. -/
theorem oddParts_interleave : ∀ (lit pat : List Str),
    pat.length ≤ lit.length → lit.length ≤ pat.length + 1 →
    oddParts (interleave lit pat) = pat := by
  intro lit
  induction lit with
  | nil =>
    intro pat h1 _
    have : pat = [] := by cases pat <;> simp_all
    subst this
    simp [interleave, oddParts]
  | cons l ls ih =>
    intro pat h1 h2
    cases pat with
    | nil =>
      have : ls = [] := by cases ls <;> simp_all
      subst this
      simp [interleave, oddParts]
    | cons p ps =>
      simp only [interleave, oddParts]
      rw [ih ps (by simp at h1; omega) (by simp at h2; omega)]

/-- The binding loop at the end of `Parse` never changes the fragment
sequence, the template, or the rule-table key set. -/
theorem bindAll_inv : ∀ (bs : List Bind) (p q : P), bindAll p bs = .ok q →
    q.parts = p.parts ∧ q.template = p.template ∧
      ∀ n, rulesHas q.rules n = rulesHas p.rules n := by
  intro bs
  induction bs with
  | nil =>
    intro p q h
    simp [bindAll] at h
    subst h
    simp
  | cons b rest ih =>
    intro p q h
    simp only [bindAll] at h
    cases hb : PBind p b.name b.expr with
    | none => rw [hb] at h; exact absurd h (by simp)
    | some p2 =>
      rw [hb] at h
      have h2 := ih p2 q h
      unfold PBind at hb
      by_cases hh : rulesHas p.rules b.name
      · rw [if_pos hh] at hb
        injection hb with hb
        subst hb
        refine ⟨h2.1, h2.2.1, fun n => ?_⟩
        rw [h2.2.2 n]
        simp [rulesHas_set]
      · rw [if_neg hh] at hb
        exact absurd hb (by simp)

/-- Key set of a pattern produced by `Parse`: exactly its pattern-word
names. -/
theorem PParse_rulesHas : ∀ (s : Str) (binds : List Bind) (p : P),
    PParse s binds = .ok p →
    ∀ n, rulesHas p.rules n = true ↔ n ∈ oddParts p.parts := by
  intro s binds p h n
  unfold PParse at h
  cases hp : parseT s with
  | error e =>
    rw [hp, except_bind_error] at h
    exact absurd h (by simp)
  | ok litpat =>
    obtain ⟨lit, pat⟩ := litpat
    rw [hp, except_bind_ok] at h
    have hlen := parseT_len s lit pat hp
    have hb := bindAll_inv binds _ p h
    rw [hb.1, hb.2.2 n]
    unfold seedRules
    rw [oddParts_interleave lit pat hlen.1 hlen.2]
    have := foldl_put_has (fun _ => []) pat [] n
    simpa [rulesHas, rulesGet?] using this

/-- Key set of a pattern produced by `Derive`: exactly its pattern-word
names. -/
theorem PDerive_rulesHas : ∀ (p : P) (s : Str) (q : P),
    PDerive p s = .ok q →
    ∀ n, rulesHas q.rules n = true ↔ n ∈ oddParts q.parts := by
  intro p s q h n
  unfold PDerive at h
  cases hp : parseT s with
  | error e =>
    rw [hp, except_bind_error] at h
    exact absurd h (by simp)
  | ok litpat =>
    obtain ⟨lit, pat⟩ := litpat
    rw [hp, except_bind_ok] at h
    have h2 : (match pat.find? (fun n => ! rulesHas p.rules n) with
        | some m => (Except.error (PatErr.unknownWord m) : Except PatErr P)
        | none => (Except.ok
            (P.mk (interleave lit pat) s (deriveRules p.rules pat)) :
              Except PatErr P)) = Except.ok q := h
    cases hf : pat.find? (fun n => ! rulesHas p.rules n) with
    | some m => rw [hf] at h2; exact absurd h2 (by simp)
    | none =>
      rw [hf] at h2
      injection h2 with h2
      subst h2
      have hlen := parseT_len s lit pat hp
      simp only
      rw [oddParts_interleave lit pat hlen.1 hlen.2]
      unfold deriveRules
      have := foldl_put_has (fun x => (rulesGet? p.rules x).getD []) pat [] n
      simpa [rulesHas, rulesGet?] using this

/-- A successful rebind leaves the fragment sequence and the rule
table's key set unchanged. -/
theorem PBind_rulesHas : ∀ (p : P) (ne ex : Str) (q : P),
    PBind p ne ex = some q →
    q.parts = p.parts ∧
      ∀ n, (rulesHas q.rules n = true ↔ rulesHas p.rules n = true) := by
  intro p ne ex q h
  unfold PBind at h
  by_cases hh : rulesHas p.rules ne
  · rw [if_pos hh] at h
    injection h with h
    subst h
    exact ⟨rfl, fun n => by simp [rulesHas_set]⟩
  · rw [if_neg hh] at h
    exact absurd h (by simp)

/-- Claim C9: every Pattern produced by `Parse` or `Derive`, and every
Pattern after a successful rebind, has a rule table whose key set is
exactly the set of pattern-word names occurring in its fragment
sequence (and rebinding also leaves the fragment sequence itself
unchanged). -/
theorem claim_C9 :
    (∀ (s : Str) (binds : List Bind) (p : P), PParse s binds = .ok p →
      ∀ n, rulesHas p.rules n = true ↔ n ∈ oddParts p.parts) ∧
    (∀ (p : P) (s : Str) (q : P), PDerive p s = .ok q →
      ∀ n, rulesHas q.rules n = true ↔ n ∈ oddParts q.parts) ∧
    (∀ (p : P) (ne ex : Str) (q : P), PBind p ne ex = some q →
      q.parts = p.parts ∧
        ∀ n, (rulesHas q.rules n = true ↔ rulesHas p.rules n = true)) :=
  ⟨PParse_rulesHas, PDerive_rulesHas, PBind_rulesHas⟩

/-- Witness for claim C9: the pattern parsed from `a${b}c` has rule
table holding exactly the name `b`. -/
theorem claim_C9_witness :
    rulesHas (P.mk [lc "a", lc "b", lc "c"] (lc "a${b}c") [(lc "b", [])]).rules
        (lc "b") = true ↔
      lc "b" ∈ oddParts (P.mk [lc "a", lc "b", lc "c"] (lc "a${b}c")
        [(lc "b", [])]).parts :=
  claim_C9.1 (lc "a${b}c") []
    (P.mk [lc "a", lc "b", lc "c"] (lc "a${b}c") [(lc "b", [])]) (by decide)
    (lc "b")

/-- The value recorded for a name by the binding loop: the last
supplied expression for that name wins, and names never supplied keep
their seeded value. -/
theorem bindAll_get : ∀ (bs : List Bind) (p q : P), bindAll p bs = .ok q →
    ∀ n, rulesGet? q.rules n =
      match (subOf bs n).getLast? with
      | some v => some v
      | none => rulesGet? p.rules n := by
  intro bs
  induction bs with
  | nil =>
    intro p q h n
    simp [bindAll] at h
    subst h
    simp [subOf]
  | cons b rest ih =>
    intro p q h n
    simp only [bindAll] at h
    cases hb : PBind p b.name b.expr with
    | none => rw [hb] at h; exact absurd h (by simp)
    | some p2 =>
      rw [hb] at h
      have hq := ih p2 q h n
      unfold PBind at hb
      by_cases hh : rulesHas p.rules b.name
      · rw [if_pos hh] at hb
        injection hb with hb
        subst hb
        rw [hq]
        by_cases hn : b.name = n
        · subst hn
          have hsub : subOf (b :: rest) b.name = b.expr :: subOf rest b.name := by
            simp [subOf]
          rw [hsub]
          cases hrest : (subOf rest b.name).getLast? with
          | some v =>
            have : (b.expr :: subOf rest b.name).getLast? = some v := by
              cases hsr : subOf rest b.name with
              | nil => rw [hsr] at hrest; simp at hrest
              | cons y ys =>
                rw [hsr] at hrest
                rw [List.getLast?_cons_cons, hrest]
            rw [this]
          | none =>
            have hnil : subOf rest b.name = [] := by
              cases hsr : subOf rest b.name with
              | nil => rfl
              | cons y ys =>
                rw [hsr] at hrest
                exact absurd hrest (by simp [List.getLast?_cons_cons,
                  List.getLast?_isSome])
            rw [hnil]
            simp only [List.getLast?_singleton]
            rw [rulesGet?_set]
            simp only [if_pos rfl]
            unfold rulesHas at hh
            cases hg : rulesGet? p.rules b.name with
            | none => rw [hg] at hh; simp at hh
            | some w => simp
        · have hsub : subOf (b :: rest) n = subOf rest n := by
            simp [subOf, hn]
          rw [hsub, rulesGet?_set]
          simp [hn]
      · rw [if_neg hh] at hb
        exact absurd hb (by simp)

/-- The binding loop fails with the unknown-pattern-word error as soon
as some binding's name is not a key of the rule table. -/
theorem bindAll_fail : ∀ (bs : List Bind) (p : P),
    (∃ b ∈ bs, rulesHas p.rules b.name = false) →
    ∃ n, bindAll p bs = .error (.unknownWord n) ∧ rulesHas p.rules n = false := by
  intro bs
  induction bs with
  | nil => intro p h; simp at h
  | cons b rest ih =>
    intro p h
    by_cases hh : rulesHas p.rules b.name
    · have hsome : PBind p b.name b.expr =
          some { p with rules := rulesSet p.rules b.name b.expr } := by
        unfold PBind
        rw [if_pos hh]
      obtain ⟨c, hc, hcf⟩ := h
      rcases List.mem_cons.mp hc with hceq | hcr
      · subst hceq
        rw [hh] at hcf
        exact absurd hcf (by simp)
      · have hrest : ∃ c ∈ rest,
            rulesHas ({ p with rules := rulesSet p.rules b.name b.expr } : P).rules
              c.name = false := by
          refine ⟨c, hcr, ?_⟩
          simpa [rulesHas_set] using hcf
        obtain ⟨n, hn, hnf⟩ := ih _ hrest
        refine ⟨n, ?_, ?_⟩
        · simp only [bindAll, hsome]
          exact hn
        · simpa [rulesHas_set] using hnf
    · refine ⟨b.name, ?_, by simpa using hh⟩
      have hnone : PBind p b.name b.expr = none := by
        unfold PBind
        rw [if_neg hh]
      simp [bindAll, hnone]

/-- The binding loop succeeds when every binding's name is a key of the
rule table. -/
theorem bindAll_ok : ∀ (bs : List Bind) (p : P),
    (∀ b ∈ bs, rulesHas p.rules b.name = true) →
    ∃ q, bindAll p bs = .ok q := by
  intro bs
  induction bs with
  | nil => intro p _; exact ⟨p, rfl⟩
  | cons b rest ih =>
    intro p h
    have hh : rulesHas p.rules b.name = true := h b (by simp)
    have hsome : PBind p b.name b.expr =
        some { p with rules := rulesSet p.rules b.name b.expr } := by
      unfold PBind
      rw [if_pos hh]
    have hrest : ∀ c ∈ rest,
        rulesHas ({ p with rules := rulesSet p.rules b.name b.expr } : P).rules
          c.name = true := by
      intro c hc
      simpa [rulesHas_set] using h c (by simp [hc])
    obtain ⟨q, hq⟩ := ih _ hrest
    refine ⟨q, ?_⟩
    simp only [bindAll, hsome]
    exact hq

/-- Claim C10: for a template that parses, `Parse` fails with an
unknown-pattern-word error when some supplied binding names a word not
occurring in the template, and otherwise succeeds with each supplied
expression recorded in the rule table (the last supplied expression
for a name winning). -/
theorem claim_C10 :
    ∀ (s : Str) (binds : List Bind) (lit pat : List Str),
    parseT s = .ok (lit, pat) →
    ((∃ b ∈ binds, b.name ∉ pat) →
      ∃ n, PParse s binds = .error (.unknownWord n) ∧ n ∉ pat) ∧
    ((∀ b ∈ binds, b.name ∈ pat) →
      ∃ p, PParse s binds = .ok p ∧
        ∀ b ∈ binds, rulesGet? p.rules b.name = (subOf binds b.name).getLast?) := by
  intro s binds lit pat hp
  have hseed : ∀ n, rulesHas (seedRules pat) n = true ↔ n ∈ pat := by
    intro n
    unfold seedRules
    have := foldl_put_has (fun _ => []) pat [] n
    simpa [rulesHas, rulesGet?] using this
  constructor
  · intro hex
    obtain ⟨b, hb, hbn⟩ := hex
    have hfail := bindAll_fail binds
      (P.mk (interleave lit pat) s (seedRules pat))
      ⟨b, hb, by
        simp only
        rcases hhb : rulesHas (seedRules pat) b.name with _ | _
        · rfl
        · exact absurd ((hseed b.name).mp hhb) hbn⟩
    obtain ⟨n, hn, hnf⟩ := hfail
    refine ⟨n, ?_, fun hmem => by
      rw [(hseed n).mpr hmem] at hnf
      exact absurd hnf (by simp)⟩
    unfold PParse
    rw [hp, except_bind_ok]
    exact hn
  · intro hall
    obtain ⟨q, hq⟩ := bindAll_ok binds
      (P.mk (interleave lit pat) s (seedRules pat))
      (fun b hb => (hseed b.name).mpr (hall b hb))
    refine ⟨q, ?_, ?_⟩
    · unfold PParse
      rw [hp, except_bind_ok]
      exact hq
    · intro b hb
      have hg := bindAll_get binds _ q hq b.name
      have hne : subOf binds b.name ≠ [] := by
        unfold subOf
        intro hcon
        have : b ∈ binds.filter fun x => x.name = b.name :=
          List.mem_filter.mpr ⟨hb, by simp⟩
        rw [List.map_eq_nil_iff] at hcon
        rw [hcon] at this
        simp at this
      cases hl : (subOf binds b.name).getLast? with
      | none => exact absurd (List.getLast?_eq_none_iff.mp hl) hne
      | some v =>
        rw [hg, hl]

/-- Witness for claim C10 at the template `a${b}c` with a binding for
`b` and one for the unknown word `z`. -/
theorem claim_C10_witness :
    (∃ n, PParse (lc "a${b}c") [⟨lc "z", lc "x"⟩] = .error (.unknownWord n) ∧
      n ∉ [lc "b"]) ∧
    ∃ p, PParse (lc "a${b}c") [⟨lc "b", lc "x"⟩] = .ok p ∧
      ∀ b ∈ [(⟨lc "b", lc "x"⟩ : Bind)],
        rulesGet? p.rules b.name = (subOf [⟨lc "b", lc "x"⟩] b.name).getLast? :=
  ⟨(claim_C10 (lc "a${b}c") [⟨lc "z", lc "x"⟩] [lc "a", lc "c"] [lc "b"]
      (by decide)).1 ⟨⟨lc "z", lc "x"⟩, by simp, by decide⟩,
    (claim_C10 (lc "a${b}c") [⟨lc "b", lc "x"⟩] [lc "a", lc "c"] [lc "b"]
      (by decide)).2 (by intro b hb; simp at hb; subst hb; simp)⟩

/-! ### The reversibility predicate -/

/-- Increment of the tally map: the incremented key gains one (from a
default of zero), other keys are unchanged. -/
theorem tallyGet?_inc : ∀ (m : List (Str × Int)) (k n : Str),
    tallyGet? (tallyInc m k) n =
      if k = n then some ((tallyGet? m n).getD 0 + 1) else tallyGet? m n := by
  intro m
  induction m with
  | nil =>
    intro k n
    by_cases h : k = n <;> simp [tallyInc, tallyGet?, h]
  | cons e rest ih =>
    intro k n
    obtain ⟨ek, ev⟩ := e
    simp only [tallyInc]
    by_cases hk : ek = k
    · subst hk
      simp only [if_pos rfl, tallyGet?]
      by_cases hn : ek = n
      · subst hn; simp
      · simp [hn]
    · rw [if_neg hk]
      simp only [tallyGet?]
      by_cases hn : ek = n
      · subst hn
        have : ¬ (k = ek) := fun hc => hk hc.symm
        simp [this]
      · simp [hn, ih]

/-- Update of an existing tally key maps its value; other keys are
unchanged. -/
theorem tallyGet?_set : ∀ (m : List (Str × Int)) (k : Str) (w : Int) (n : Str),
    tallyGet? (tallySet m k w) n =
      if k = n then (tallyGet? m n).map (fun _ => w) else tallyGet? m n := by
  intro m
  induction m with
  | nil => intro k w n; simp [tallySet, tallyGet?]
  | cons e rest ih =>
    intro k w n
    obtain ⟨ek, ev⟩ := e
    simp only [tallySet]
    by_cases hk : ek = k
    · subst hk
      simp only [if_pos rfl, tallyGet?]
      by_cases hn : ek = n
      · subst hn; simp
      · simp [hn]
    · rw [if_neg hk]
      simp only [tallyGet?]
      by_cases hn : ek = n
      · subst hn
        have : ¬ (k = ek) := fun hc => hk hc.symm
        simp [this]
      · simp [hn, ih]

/-- A lookup of a listed key succeeds. -/
theorem tallyGet?_isSome_of_mem : ∀ (m : List (Str × Int)) (n : Str),
    n ∈ m.map Prod.fst → (tallyGet? m n).isSome = true := by
  intro m
  induction m with
  | nil => intro n h; simp at h
  | cons e rest ih =>
    intro n h
    obtain ⟨ek, ev⟩ := e
    simp only [List.map_cons, List.mem_cons] at h
    simp only [tallyGet?]
    by_cases he : ek = n
    · simp [he]
    · rw [if_neg he]
      rcases h with h | h
      · exact absurd h.symm he
      · exact ih n h

/-- Closed form of the tally built over a binding list: a name's entry
is its occurrence count added to the accumulator's entry, with names
of count zero untouched. -/
theorem tally_closed : ∀ (a : List Bind) (m0 : List (Str × Int)) (n : Str),
    tallyGet? (a.foldl (fun m bd => tallyInc m bd.name) m0) n =
      if (a.map Bind.name).count n = 0 then tallyGet? m0 n
      else some ((tallyGet? m0 n).getD 0 + ((a.map Bind.name).count n : Int)) := by
  intro a
  induction a with
  | nil => intro m0 n; simp
  | cons b rest ih =>
    intro m0 n
    simp only [List.foldl_cons, List.map_cons]
    rw [ih, tallyGet?_inc]
    by_cases hb : b.name = n
    · subst hb
      simp only [eq_self_iff_true, if_true, List.count_cons_self]
      by_cases hc : (rest.map Bind.name).count b.name = 0
      · have h1 : ¬((rest.map Bind.name).count b.name + 1 = 0) := by omega
        rw [if_pos hc, if_neg h1]
        congr 1
        omega
      · have h1 : ¬((rest.map Bind.name).count b.name + 1 = 0) := by omega
        rw [if_neg hc, if_neg h1]
        simp only [Option.getD_some]
        congr 1
        omega
    · rw [if_neg hb, List.count_cons_of_ne (fun hc2 => hb hc2.symm)]

/-- The keys of a tally map after an increment. -/
theorem tallyInc_keys (m : List (Str × Int)) (k : Str) :
    (tallyInc m k).map Prod.fst =
      if (tallyGet? m k).isSome then m.map Prod.fst else m.map Prod.fst ++ [k] := by
  induction m with
  | nil => simp [tallyInc, tallyGet?]
  | cons e rest ih =>
    obtain ⟨ek, ev⟩ := e
    simp only [tallyInc, tallyGet?]
    by_cases hk : ek = k
    · subst hk; simp
    · simp only [if_neg hk, List.map_cons, ih]
      split <;> simp

/-- The keys of a tally map are unchanged by updating an existing
key. -/
theorem tallySet_keys (m : List (Str × Int)) (k : Str) (w : Int) :
    (tallySet m k w).map Prod.fst = m.map Prod.fst := by
  induction m with
  | nil => simp [tallySet]
  | cons e rest ih =>
    obtain ⟨ek, ev⟩ := e
    simp only [tallySet]
    split <;> simp [ih]

/-- Building a tally preserves distinctness of its keys. -/
theorem tally_nodup : ∀ (a : List Bind) (m0 : List (Str × Int)),
    (m0.map Prod.fst).Nodup →
    ((a.foldl (fun m bd => tallyInc m bd.name) m0).map Prod.fst).Nodup := by
  intro a
  induction a with
  | nil => intro m0 h; simpa using h
  | cons b rest ih =>
    intro m0 h
    simp only [List.foldl_cons]
    refine ih _ ?_
    rw [tallyInc_keys]
    split
    · exact h
    · rename_i hns
      rw [List.nodup_append]
      refine ⟨h, by simp, ?_⟩
      intro x hx
      simp only [List.mem_singleton]
      intro hc
      subst hc
      exact hns (tallyGet?_isSome_of_mem m0 b.name hx)

/-- The consuming loop preserves the tally's keys. -/
theorem consume_keys : ∀ (b : List Bind) (m m2 : List (Str × Int)),
    consume m b = some m2 → m2.map Prod.fst = m.map Prod.fst := by
  intro b
  induction b with
  | nil =>
    intro m m2 h
    simp [consume] at h
    subst h
    rfl
  | cons bd rest ih =>
    intro m m2 h
    simp only [consume] at h
    split at h
    · simp at h
    · split at h
      · simp at h
      · rw [ih _ _ h, tallySet_keys]

/-- The consuming loop succeeds exactly when, for every name occurring
in `b`, the tally holds the name with at least its occurrence count. -/
theorem consume_isSome : ∀ (b : List Bind) (m : List (Str × Int)),
    (consume m b).isSome = true ↔
      ∀ n, (b.map Bind.name).count n = 0 ∨
        ((tallyGet? m n).isSome = true ∧
          (((b.map Bind.name).count n : Int) ≤ (tallyGet? m n).getD 0)) := by
  intro b
  induction b with
  | nil => intro m; simp [consume]
  | cons bd rest ih =>
    intro m
    simp only [consume, List.map_cons]
    split
    · rename_i hg
      simp only [Option.isSome_none, Bool.false_eq_true, false_iff]
      intro hall
      rcases hall bd.name with hc | hc
      · rw [List.count_cons_self] at hc; omega
      · rw [hg] at hc
        simp at hc
    · rename_i v hg
      split
      · rename_i hv
        simp only [Option.isSome_none, Bool.false_eq_true, false_iff]
        intro hall
        rcases hall bd.name with hc | hc
        · rw [List.count_cons_self] at hc; omega
        · rw [hg] at hc
          simp only [Option.getD_some] at hc
          have h2 := hc.2
          rw [List.count_cons_self] at h2
          push_cast at h2
          omega
      · rename_i hv
        rw [ih]
        constructor
        · intro hall n
          by_cases hbn : bd.name = n
          · subst hbn
            rw [List.count_cons_self]
            refine Or.inr ⟨by simp [hg], ?_⟩
            rw [hg]
            simp only [Option.getD_some]
            rcases hall bd.name with hc | ⟨hs, hle⟩
            · rw [hc]
              push_cast
              omega
            · rw [tallyGet?_set, if_pos rfl, hg] at hle
              simp only [Option.map_some', Option.getD_some] at hle
              push_cast at hle ⊢
              omega
          · rw [List.count_cons_of_ne (fun hc2 => hbn hc2.symm)]
            rcases hall n with hc | ⟨hs, hle⟩
            · exact Or.inl hc
            · rw [tallyGet?_set, if_neg hbn] at hs hle
              exact Or.inr ⟨hs, hle⟩
        · intro hall n
          by_cases hbn : bd.name = n
          · subst hbn
            rcases hall bd.name with hc | ⟨hs, hle⟩
            · rw [List.count_cons_self] at hc
              omega
            · rw [hg] at hle
              simp only [Option.getD_some] at hle
              rw [List.count_cons_self] at hle
              by_cases hz : (rest.map Bind.name).count bd.name = 0
              · exact Or.inl hz
              · refine Or.inr ⟨?_, ?_⟩
                · rw [tallyGet?_set, if_pos rfl, hg]
                  simp
                · rw [tallyGet?_set, if_pos rfl, hg]
                  simp only [Option.map_some', Option.getD_some]
                  push_cast at hle ⊢
                  omega
          · rcases hall n with hc | ⟨hs, hle⟩
            · rw [List.count_cons_of_ne (fun hc2 => hbn hc2.symm)] at hc
              exact Or.inl hc
            · rw [List.count_cons_of_ne (fun hc2 => hbn hc2.symm)] at hle
              rw [tallyGet?_set, if_neg hbn]
              exact Or.inr ⟨hs, hle⟩

/-- The tally left by a successful consuming loop: every entry is the
original entry minus the name's occurrence count in `b`. -/
theorem consume_get : ∀ (b : List Bind) (m m2 : List (Str × Int)),
    consume m b = some m2 →
    ∀ n, tallyGet? m2 n =
      (tallyGet? m n).map (fun v => v - ((b.map Bind.name).count n : Int)) := by
  intro b
  induction b with
  | nil =>
    intro m m2 h n
    simp [consume] at h
    subst h
    cases tallyGet? m n <;> simp
  | cons bd rest ih =>
    intro m m2 h n
    simp only [consume] at h
    split at h
    · simp at h
    · rename_i v hg
      split at h
      · simp at h
      · have h2 := ih _ _ h n
        rw [h2, tallyGet?_set]
        by_cases hbn : bd.name = n
        · subst hbn
          rw [if_pos rfl, hg]
          simp only [List.map_cons, List.count_cons_self, Option.map_some']
          congr 1
          push_cast
          ring
        · rw [if_neg hbn]
          simp only [List.map_cons]
          rw [List.count_cons_of_ne (fun hc2 => hbn hc2.symm)]

/-- A successful lookup's key is listed. -/
theorem mem_of_tallyGet?_isSome : ∀ (m : List (Str × Int)) (n : Str),
    (tallyGet? m n).isSome = true → n ∈ m.map Prod.fst := by
  intro m
  induction m with
  | nil => intro n h; simp [tallyGet?] at h
  | cons e rest ih =>
    intro n h
    obtain ⟨ek, ev⟩ := e
    simp only [tallyGet?] at h
    simp only [List.map_cons, List.mem_cons]
    by_cases he : ek = n
    · exact Or.inl he.symm
    · rw [if_neg he] at h
      exact Or.inr (ih n h)

/-- Over a tally with distinct keys, the all-zero scan is equivalent to
every lookup returning zero. -/
theorem all_zero_iff : ∀ (m : List (Str × Int)), (m.map Prod.fst).Nodup →
    ((m.all fun e => e.2 = 0) = true ↔
      ∀ n v, tallyGet? m n = some v → v = 0) := by
  intro m
  induction m with
  | nil => simp [tallyGet?]
  | cons e rest ih =>
    obtain ⟨ek, ev⟩ := e
    intro hnd
    simp only [List.map_cons, List.nodup_cons] at hnd
    rw [List.all_cons]
    constructor
    · intro h n v hg
      rw [Bool.and_eq_true] at h
      have h1 : ev = 0 := by simpa using h.1
      have h2 := (ih hnd.2).mp h.2
      simp only [tallyGet?] at hg
      by_cases hn : ek = n
      · rw [if_pos hn] at hg
        injection hg with hg
        omega
      · rw [if_neg hn] at hg
        exact h2 n v hg
    · intro h
      rw [Bool.and_eq_true]
      constructor
      · have := h ek ev (by simp [tallyGet?])
        simpa using this
      · refine (ih hnd.2).mpr ?_
        intro n v hg
        by_cases hn : ek = n
        · subst hn
          exact absurd (mem_of_tallyGet?_isSome rest ek (by simp [hg])) hnd.1
        · exact h n v (by simpa [tallyGet?, hn] using hg)

/-- Claim C5: `reversible(a, b)` returns true exactly when the multiset
of names occurring in `a` equals the multiset of names occurring in
`b`: every name is carried by equally many Bind entries on both
sides. -/
theorem claim_C5 : ∀ (a b : List Bind),
    reversible a b = true ↔
      ∀ n : Str, (a.map Bind.name).count n = (b.map Bind.name).count n := by
  intro a b
  unfold reversible
  split
  · rename_i hc
    simp only [Bool.false_eq_true, false_iff]
    intro hall
    have hs : (consume (a.foldl (fun m bd => tallyInc m bd.name) []) b).isSome = true := by
      rw [consume_isSome]
      intro n
      by_cases hz : (b.map Bind.name).count n = 0
      · exact Or.inl hz
      · have ha : (a.map Bind.name).count n ≠ 0 := by rw [hall n]; exact hz
        rw [tally_closed, if_neg ha]
        refine Or.inr ⟨by simp, ?_⟩
        simp only [tallyGet?, Option.getD_none, Option.getD_some]
        have h3 := hall n
        omega
    rw [hc] at hs
    simp at hs
  · rename_i m2 hc
    have hnd := tally_nodup a [] (by simp)
    have hnd2 : (m2.map Prod.fst).Nodup := by
      rw [consume_keys b _ _ hc]
      exact hnd
    rw [all_zero_iff m2 hnd2]
    constructor
    · intro hz n
      have hg := consume_get b _ _ hc n
      rw [tally_closed] at hg
      by_cases haz : (a.map Bind.name).count n = 0
      · rw [if_pos haz] at hg
        simp only [tallyGet?, Option.map_none] at hg
        have hs : (consume (a.foldl (fun m bd => tallyInc m bd.name) []) b).isSome = true := by
          rw [hc]; simp
        rw [consume_isSome] at hs
        rcases hs n with hbz | ⟨hbs, _⟩
        · omega
        · rw [tally_closed, if_pos haz] at hbs
          simp [tallyGet?] at hbs
      · rw [if_neg haz] at hg
        simp only [tallyGet?, Option.getD_none, Option.getD_some,
          Option.map_some'] at hg
        have h4 := hz n _ hg
        omega
    · intro hall n v hg
      have hg2 := consume_get b _ _ hc n
      rw [tally_closed] at hg2
      by_cases haz : (a.map Bind.name).count n = 0
      · rw [if_pos haz] at hg2
        simp only [tallyGet?, Option.map_none] at hg2
        rw [hg] at hg2
        exact absurd hg2 (by simp)
      · rw [if_neg haz] at hg2
        simp only [tallyGet?, Option.getD_none, Option.getD_some,
          Option.map_some'] at hg2
        rw [hg] at hg2
        injection hg2 with hg2
        have hab := hall n
        omega

/-! ### Apply semantics -/

/-- Unfolding: a literal part is emitted verbatim. -/
theorem applyLoop_lit (part : Str) (rest : List Str) (sub : Str → List Str) :
    applyLoop (part :: rest) sub true =
      (applyLoop rest sub false).map (part ++ ·) := rfl

/-- Unfolding: a placeholder with an empty queue is the missing-binding
error. -/
theorem applyLoop_ph_nil (part : Str) (rest : List Str) (sub : Str → List Str)
    (hsub : sub part = []) :
    applyLoop (part :: rest) sub false = .error (.missingBinding part) := by
  simp only [applyLoop, hsub, Bool.false_eq_true, if_false]

/-- Unfolding: a placeholder emits the head of its queue and pops it
only when further values remain. -/
theorem applyLoop_ph (part : Str) (rest : List Str) (sub : Str → List Str)
    (v : Str) (vs : List Str) (hsub : sub part = v :: vs) :
    applyLoop (part :: rest) sub false =
      (applyLoop rest
        (if vs.isEmpty then sub else fun n => if n = part then vs else sub n)
        true).map (v ++ ·) := by
  simp only [applyLoop, hsub, Bool.false_eq_true, if_false]

/-- Unfolding for the occurrence-counting rendering: literal part. -/
theorem applyIdx_lit (part : Str) (rest : List Str) (occ : Str → Nat)
    (binds : List Bind) :
    applyIdx (part :: rest) occ binds true =
      (applyIdx rest occ binds false).map (part ++ ·) := rfl

/-- Unfolding: a placeholder of a name with no supplied value is the
missing-binding error. -/
theorem applyIdx_ph_nil (part : Str) (rest : List Str) (occ : Str → Nat)
    (binds : List Bind) (hne : (subOf binds part).isEmpty = true) :
    applyIdx (part :: rest) occ binds false = .error (.missingBinding part) := by
  simp only [applyIdx, hne]
  simp

/-- Unfolding: a placeholder of a supplied name emits the clamped
occurrence-indexed value and advances the name's counter. -/
theorem applyIdx_ph (part : Str) (rest : List Str) (occ : Str → Nat)
    (binds : List Bind) (hne : (subOf binds part).isEmpty = false) :
    applyIdx (part :: rest) occ binds false =
      (applyIdx rest (fun n => if n = part then occ part + 1 else occ n) binds
        true).map
        ((subOf binds part).getD
          (min (occ part) ((subOf binds part).length - 1)) [] ++ ·) := by
  simp only [applyIdx, hne]
  simp

/-- The stateful queue-based rendering loop agrees with the
occurrence-counting rendering: if each queue holds the supplied values
for its name with the already-consumed prefix dropped (clamped so the
last value is retained), the two loops produce the same result. -/
theorem applyLoop_eq_applyIdx : ∀ (parts : List Str) (binds : List Bind)
    (sub : Str → List Str) (occ : Str → Nat) (isLit : Bool),
    (∀ n, sub n = (subOf binds n).drop (min (occ n) ((subOf binds n).length - 1))) →
    applyLoop parts sub isLit = applyIdx parts occ binds isLit := by
  intro parts
  induction parts with
  | nil => intro binds sub occ isLit _; rfl
  | cons part rest ih =>
    intro binds sub occ isLit hinv
    cases isLit with
    | true =>
      rw [applyLoop_lit, applyIdx_lit, ih binds sub occ false hinv]
    | false =>
      have hs := hinv part
      by_cases hemp : (subOf binds part).isEmpty = true
      · have hnil : subOf binds part = [] := by
          simpa [List.isEmpty_iff] using hemp
        rw [applyLoop_ph_nil part rest sub (by rw [hs, hnil]; simp),
          applyIdx_ph_nil part rest occ binds hemp]
      · have hne : subOf binds part ≠ [] := by
          simpa [List.isEmpty_iff] using hemp
        have hlen : 0 < (subOf binds part).length := List.length_pos.mpr hne
        have hklt : min (occ part) ((subOf binds part).length - 1) <
            (subOf binds part).length := by omega
        have hdrop : sub part =
            (subOf binds part).get
              ⟨min (occ part) ((subOf binds part).length - 1), hklt⟩ ::
            (subOf binds part).drop
              (min (occ part) ((subOf binds part).length - 1) + 1) := by
          rw [hs, List.drop_eq_getElem_cons hklt]
          simp
        rw [applyLoop_ph part rest sub _ _ hdrop,
          applyIdx_ph part rest occ binds (by simpa using hemp)]
        have hval : (subOf binds part).getD
            (min (occ part) ((subOf binds part).length - 1)) [] =
            (subOf binds part).get
              ⟨min (occ part) ((subOf binds part).length - 1), hklt⟩ := by
          rw [List.getD_eq_getElem?_getD, List.getElem?_eq_getElem hklt]
          simp
        rw [hval]
        congr 1
        apply ih
        intro n
        by_cases hn : n = part
        · subst hn
          simp only [eq_self_iff_true, if_true]
          by_cases hvs : ((subOf binds n).drop
              (min (occ n) ((subOf binds n).length - 1) + 1)).isEmpty = true
          · rw [if_pos hvs]
            rw [List.isEmpty_iff, List.drop_eq_nil_iff] at hvs
            have hmin : min (occ n + 1) ((subOf binds n).length - 1) =
                min (occ n) ((subOf binds n).length - 1) := by omega
            rw [hmin]
            exact hs
          · rw [if_neg hvs]
            have hvs2 := hvs
            rw [List.isEmpty_iff, List.drop_eq_nil_iff] at hvs2
            have hmin : min (occ n + 1) ((subOf binds n).length - 1) =
                min (occ n) ((subOf binds n).length - 1) + 1 := by omega
            rw [hmin]
            simp
        · simp only [if_neg hn]
          split
          · exact hinv n
          · simp only [if_neg hn]
            exact hinv n

/-- Rendering ignores queue contents of names outside the placeholder
positions: two queue maps agreeing on every looked-up name render
identically. -/
theorem applyLoop_congr : ∀ (parts : List Str) (sub1 sub2 : Str → List Str)
    (isLit : Bool),
    (∀ n, n ∈ phNames parts isLit → sub1 n = sub2 n) →
    applyLoop parts sub1 isLit = applyLoop parts sub2 isLit := by
  intro parts
  induction parts with
  | nil => intro sub1 sub2 isLit _; rfl
  | cons part rest ih =>
    intro sub1 sub2 isLit hag
    cases isLit with
    | true =>
      rw [applyLoop_lit, applyLoop_lit,
        ih sub1 sub2 false (fun n hn => hag n hn)]
    | false =>
      have hp : sub1 part = sub2 part := hag part (by simp [phNames])
      cases hl : sub2 part with
      | nil =>
        rw [applyLoop_ph_nil part rest sub1 (by rw [hp, hl]),
          applyLoop_ph_nil part rest sub2 hl]
      | cons w ws =>
        rw [applyLoop_ph part rest sub1 w ws (by rw [hp, hl]),
          applyLoop_ph part rest sub2 w ws hl]
        congr 1
        apply ih
        intro n hn
        by_cases hnp : n = part
        · subst hnp
          by_cases hws : ws.isEmpty = true
          · rw [if_pos hws, if_pos hws, hp]
          · rw [if_neg hws, if_neg hws]
            simp
        · have hmem : n ∈ phNames (part :: rest) false := by
            simp [phNames, hn]
          have hag2 := hag n hmem
          by_cases hws : ws.isEmpty = true
          · rw [if_pos hws, if_pos hws]
            exact hag2
          · rw [if_neg hws, if_neg hws]
            simp only [if_neg hnp]
            exact hag2

/-- The looked-up names starting at literal parity are exactly the
odd-position parts. -/
theorem phNames_odd : ∀ (l : List Str),
    phNames l true = oddParts l ∧
    phNames l false = (match l with | [] => [] | a :: r => a :: oddParts r) := by
  intro l
  induction l with
  | nil => exact ⟨rfl, rfl⟩
  | cons a rest ih =>
    constructor
    · rw [show phNames (a :: rest) true = phNames rest false from rfl, ih.2]
      cases rest with
      | nil => rfl
      | cons b r2 => rfl
    · rw [show phNames (a :: rest) false = a :: phNames rest true from rfl, ih.1]

/-- Filtering a binding list by a name predicate holding at `n`
preserves the queue of `n`. -/
theorem subOf_filter : ∀ (binds : List Bind) (q : Str → Bool) (n : Str),
    q n = true →
    subOf (binds.filter fun b => q b.name) n = subOf binds n := by
  intro binds
  induction binds with
  | nil => intro q n _; rfl
  | cons b rest ih =>
    intro q n hq
    have hsub : ∀ (l : List Bind), subOf (b :: l) n =
        (if b.name = n then [b.expr] else []) ++ subOf l n := by
      intro l
      by_cases hn : b.name = n
      · simp [subOf, List.filter_cons, hn]
      · simp [subOf, List.filter_cons, hn]
    cases hqb : q b.name with
    | true =>
      rw [show (b :: rest).filter (fun x => q x.name) =
          b :: rest.filter (fun x => q x.name) by simp [List.filter_cons, hqb]]
      rw [hsub, hsub, ih q n hq]
    | false =>
      rw [show (b :: rest).filter (fun x => q x.name) =
          rest.filter (fun x => q x.name) by simp [List.filter_cons, hqb]]
      rw [hsub, ih q n hq]
      have hn : ¬ (b.name = n) := by
        intro hc
        rw [hc] at hqb
        rw [hq] at hqb
        exact absurd hqb (by simp)
      simp [hn]

/-- Claim C4: `Apply` renders literal fragments verbatim and, for each
placeholder occurrence in template order, substitutes the next
unconsumed value supplied for that name, repeating the last value once
a name's values are exhausted and failing with a missing-binding error
for a name that received no value; this is captured by agreement with
the occurrence-counting rendering `applyIdx` (clamped per-name
indexing).  Bindings whose names do not occur at the template's
placeholder positions are silently ignored, and on the documented
example `Apply` pads the second occurrence of `thing`. -/
theorem claim_C4 :
    (∀ (p : P) (binds : List Bind),
      PApply p binds = applyIdx p.parts (fun _ => 0) binds true) ∧
    (∀ (p : P) (binds : List Bind),
      PApply p binds =
        PApply p (binds.filter fun b => decide (b.name ∈ oddParts p.parts))) ∧
    (PParse (lc "${thing} is as ${thing} ${verb}") []).map
      (fun p => PApply p [⟨lc "thing", lc "handsome"⟩, ⟨lc "verb", lc "does"⟩]) =
      .ok (.ok (lc "handsome is as handsome does")) := by
  refine ⟨?_, ?_, by decide⟩
  · intro p binds
    unfold PApply
    apply applyLoop_eq_applyIdx
    intro n
    simp
  · intro p binds
    unfold PApply
    apply applyLoop_congr
    intro n hn
    rw [(phNames_odd p.parts).1] at hn
    exact (subOf_filter binds (fun m => decide (m ∈ oddParts p.parts)) n
      (by simp [hn])).symm

/-- Claim C1: for the Transform constructed from the lhs template
`git@S{host}:S{user}/S{repo}.git` and rhs template
`http://S{host}/S{user}/S{repo}` (with `S` the dollar sign) and the
bindings `host`, `user`, `repo`, `Apply` on
`git@bitbucket.org:creachadair/stringset.git` returns
`http://bitbucket.org/creachadair/stringset` with no error, and
`Reverse().Apply` on that output returns the original input exactly. -/
theorem claim_C1 :
    (NewTransform gitLhs gitRhs gitBinds).map
      (fun t => (TApply t (lc "git@bitbucket.org:creachadair/stringset.git"),
        TApply (TReverse t) (lc "http://bitbucket.org/creachadair/stringset"))) =
    .ok (.ok (lc "http://bitbucket.org/creachadair/stringset"),
      .ok (lc "git@bitbucket.org:creachadair/stringset.git")) := by
  decide

/-- Claim C2: the code's `Replace` does not preserve the suffix of the
needle after the final match.  For the transform rewriting `a` to `b`,
`Replace` on `axe` returns `b`: the claim (and the specification)
require `bxe`, with the unmatched suffix `xe` preserved; the loop in
`Replace` never writes `needle[cur:]`.  `TReplaceSpec`, which appends
that suffix, returns the value the claim requires. -/
theorem claim_C2_bug :
    (TNew (lc "a") (lc "b") []).map
      (fun t => (TReplace t (lc "axe"), TReplaceSpec t (lc "axe"))) =
    .ok (.ok (lc "b"), .ok (lc "bxe")) ∧ lc "b" ≠ lc "bxe" := by
  constructor
  · decide
  · decide

/-- Claim C3, counterexample: with the single placeholder `x` bound to
`a|ab`, the compiled expression can match the entire needle `ab`
(`fullMatchB` is `true`), yet `Match` returns `ErrNoMatch`, because
the engine's leftmost-first match is `a`, spanning only offsets 0..1.
The claimed equivalence therefore fails in the direction from
whole-needle matchability to `Match` success. -/
theorem claim_C3_cex :
    (PParse (lc "${x}") [⟨lc "x", lc "a|ab"⟩]).map
      (fun p => ((compileItems p).map (fullMatchB (lc "ab")), PMatch p (lc "ab"))) =
    .ok (.ok true, .error .noMatch) := by
  decide

/-- Claim C6, counterexample: a Pattern with a placeholder whose rule
was never assigned (Parse seeds it with the empty expression) does not
fail with a missing-binding compile error at the first `Match`: the
empty rule compiles to an expression matching the empty string, and
`Match` on the empty needle succeeds, returning the binding `x -> ""`. -/
theorem claim_C6_cex :
    (PParse (lc "${x}") []).map (fun p => PMatch p (lc "")) =
    .ok (.ok [⟨lc "x", lc ""⟩]) := by
  decide

/-! ### Compilation and matching structure -/

/-- Unfolding: compiling a literal part emits its characters. -/
theorem compileLoop_lit (rules : List (Str × Str)) (part : Str)
    (rest : List Str) (g : Nat) :
    compileLoop rules (part :: rest) true g =
      (compileLoop rules rest false g) >>=
        fun tail => pure (part.map CItem.lit ++ tail) := rfl

/-- Unfolding: compiling a placeholder part dispatches on its rule. -/
theorem compileLoop_cons_false (rules : List (Str × Str)) (part : Str)
    (rest : List Str) (g : Nat) :
    compileLoop rules (part :: rest) false g =
      match rulesGet? rules part with
      | none => .error (.noBinding part)
      | some rule =>
        match regexParse rule (g + 1) with
        | .error _ => .error (.invalidExpr part)
        | .ok (r, g2) =>
          (compileLoop rules rest true g2) >>=
            fun tail => pure (CItem.grp g part r :: tail) := rfl

/-- Unfolding: a pattern word absent from the rule table is the
no-binding compile error. -/
theorem compileLoop_ph_none (rules : List (Str × Str)) (part : Str)
    (rest : List Str) (g : Nat) (hg : rulesGet? rules part = none) :
    compileLoop rules (part :: rest) false g = .error (.noBinding part) := by
  rw [compileLoop_cons_false, hg]

/-- Unfolding: a rule that fails to parse is the invalid-expression
compile error. -/
theorem compileLoop_ph_err (rules : List (Str × Str)) (part rule : Str)
    (rest : List Str) (g : Nat) (e : PatErr)
    (hg : rulesGet? rules part = some rule)
    (hx : regexParse rule (g + 1) = .error e) :
    compileLoop rules (part :: rest) false g = .error (.invalidExpr part) := by
  rw [compileLoop_cons_false, hg]
  show (match regexParse rule (g + 1) with
    | .error _ => (Except.error (PatErr.invalidExpr part) : Except PatErr (List CItem))
    | .ok (r, g2) =>
      (compileLoop rules rest true g2) >>=
        fun tail => pure (CItem.grp g part r :: tail)) = _
  rw [hx]

/-- Unfolding: a pattern word with a parsed rule compiles to its named
wrapper group followed by the rest. -/
theorem compileLoop_ph_ok (rules : List (Str × Str)) (part rule : Str)
    (rest : List Str) (g g2 : Nat) (r : Regex)
    (hg : rulesGet? rules part = some rule)
    (hx : regexParse rule (g + 1) = .ok (r, g2)) :
    compileLoop rules (part :: rest) false g =
      (compileLoop rules rest true g2) >>=
        fun tail => pure (CItem.grp g part r :: tail) := by
  rw [compileLoop_cons_false, hg]
  show (match regexParse rule (g + 1) with
    | .error _ => (Except.error (PatErr.invalidExpr part) : Except PatErr (List CItem))
    | .ok (r, g2) =>
      (compileLoop rules rest true g2) >>=
        fun tail => pure (CItem.grp g part r :: tail)) = _
  rw [hx]

/-- The compile loop never reports a no-binding error when the rule
table covers every pattern word it will reach. -/
theorem compileLoop_no_noBinding : ∀ (parts : List Str) (isLit : Bool)
    (g : Nat) (rules : List (Str × Str)) (n : Str),
    (∀ m, m ∈ phNames parts isLit → rulesHas rules m = true) →
    compileLoop rules parts isLit g ≠ .error (.noBinding n) := by
  intro parts
  induction parts with
  | nil =>
    intro isLit g rules n _ h
    simp [compileLoop] at h
  | cons part rest ih =>
    intro isLit g rules n hall h
    cases isLit with
    | true =>
      rw [compileLoop_lit] at h
      cases hr : compileLoop rules rest false g with
      | error e =>
        rw [hr, except_bind_error] at h
        injection h with h
        exact ih false g rules n (fun m hm => hall m hm) (by rw [hr, h])
      | ok tail =>
        rw [hr, except_bind_ok] at h
        simp [pure, Except.pure] at h
    | false =>
      have hhas : rulesHas rules part = true := hall part (by simp [phNames])
      cases hg : rulesGet? rules part with
      | none =>
        unfold rulesHas at hhas
        rw [hg] at hhas
        simp at hhas
      | some rule =>
        cases hx : regexParse rule (g + 1) with
        | error e =>
          rw [compileLoop_ph_err rules part rule rest g e hg hx] at h
          simp at h
        | ok rg =>
          obtain ⟨r, g2⟩ := rg
          rw [compileLoop_ph_ok rules part rule rest g g2 r hg hx] at h
          cases hr : compileLoop rules rest true g2 with
          | error e =>
            rw [hr, except_bind_error] at h
            injection h with h
            exact ih true g2 rules n
              (fun m hm => hall m (by simp [phNames, hm])) (by rw [hr, h])
          | ok tail =>
            rw [hr, except_bind_ok] at h
            simp [pure, Except.pure] at h

/-- Unfolding of `Match`: no match found anywhere is `ErrNoMatch`. -/
theorem PMatch_eq_none (p : P) (needle : Str) (items : List CItem)
    (hc : compileItems p = .ok items) (hf : findIdx needle items = none) :
    PMatch p needle = .error .noMatch := by
  unfold PMatch
  rw [hc, except_bind_ok, hf]

/-- Unfolding of `Match`: a found match decides the result by its
span. -/
theorem PMatch_eq_some (p : P) (needle : Str) (items : List CItem)
    (m : Nat × Nat × Caps)
    (hc : compileItems p = .ok items) (hf : findIdx needle items = some m) :
    PMatch p needle =
      if m.1 = 0 ∧ m.2.1 = needle.length
      then .ok (bindMatches items m.2.2 needle)
      else .error .noMatch := by
  unfold PMatch
  rw [hc, except_bind_ok, hf]

/-- Unfolding of `Match`: a compile failure is surfaced as-is. -/
theorem PMatch_eq_error (p : P) (needle : Str) (e : PatErr)
    (hc : compileItems p = .error e) :
    PMatch p needle = .error e := by
  unfold PMatch
  rw [hc, except_bind_error]

/-- Claim C6, amended: the no-binding compile error arises only for a
pattern word absent from the rule table; a Pattern produced by `Parse`
or by `Derive` seeds every pattern word (an unset rule holding the
empty expression), so `Match` on such a Pattern never reports the
no-binding error — an empty rule is not a compile error. -/
theorem claim_C6_amended :
    (∀ (s : Str) (binds : List Bind) (p : P) (needle : Str) (n : Str),
      PParse s binds = .ok p → PMatch p needle ≠ .error (.noBinding n)) ∧
    (∀ (p : P) (s : Str) (q : P) (needle : Str) (n : Str),
      PDerive p s = .ok q → PMatch q needle ≠ .error (.noBinding n)) := by
  have key : ∀ (p : P) (needle : Str) (n : Str),
      (∀ m, rulesHas p.rules m = true ↔ m ∈ oddParts p.parts) →
      PMatch p needle ≠ .error (.noBinding n) := by
    intro p needle n hdom h
    cases hc : compileItems p with
    | error e =>
      rw [PMatch_eq_error p needle e hc] at h
      injection h with h
      have hc2 : compileLoop p.rules p.parts true 1 = .error e := hc
      refine compileLoop_no_noBinding p.parts true 1 p.rules n ?_ (by rw [hc2, h])
      intro m hm
      rw [(phNames_odd p.parts).1] at hm
      exact (hdom m).mpr hm
    | ok items =>
      cases hf : findIdx needle items with
      | none =>
        rw [PMatch_eq_none p needle items hc hf] at h
        simp at h
      | some m =>
        rw [PMatch_eq_some p needle items m hc hf] at h
        by_cases hspan : m.1 = 0 ∧ m.2.1 = needle.length
        · rw [if_pos hspan] at h; simp at h
        · rw [if_neg hspan] at h; simp at h
  exact ⟨fun s binds p needle n hp => key p needle n (PParse_rulesHas s binds p hp),
    fun p s q needle n hq => key q needle n (PDerive_rulesHas p s q hq)⟩

/-- Witness for the amended claim C6: the pattern parsed from the
single-placeholder template with the rule of `x` unset never reports a
no-binding error when matching `q`. -/
theorem claim_C6_amended_witness :
    PMatch (P.mk [[], lc "x"] (lc "${x}") [(lc "x", [])]) (lc "q") ≠
      .error (.noBinding (lc "x")) :=
  claim_C6_amended.1 (lc "${x}") [] (P.mk [[], lc "x"] (lc "${x}") [(lc "x", [])])
    (lc "q") (lc "x") (by decide)

/-- The scan loop only reports matches at or after its start offset,
and a reported match is the head of the backtracking enumeration at
its start offset. -/
theorem findLoop_spec : ∀ (s : Str) (items : List CItem) (count pos : Nat)
    (m : Nat × Nat × Caps), findLoop s items count pos = some m →
    pos ≤ m.1 ∧ ∃ rest, runItems s (stdFuel s items) items m.1 [] =
      (m.2.1, m.2.2) :: rest := by
  intro s items count
  induction count with
  | zero => intro pos m h; simp [findLoop] at h
  | succ c ih =>
    intro pos m h
    simp only [findLoop] at h
    cases hr : runItems s (stdFuel s items) items pos [] with
    | cons ec tail =>
      rw [hr] at h
      injection h with h
      subst h
      exact ⟨le_refl _, tail, by rw [hr]⟩
    | nil =>
      rw [hr] at h
      by_cases hlt : pos < s.length
      · rw [if_pos hlt] at h
        have h2 := ih (pos + 1) m h
        exact ⟨by omega, h2.2⟩
      · rw [if_neg hlt] at h
        simp at h

/-- With a compiled matcher in hand, `Match` either succeeds or reports
exactly `ErrNoMatch`. -/
theorem PMatch_ok_or_noMatch (p : P) (needle : Str) (items : List CItem)
    (hc : compileItems p = .ok items) :
    (∃ bs, PMatch p needle = .ok bs) ∨ PMatch p needle = .error .noMatch := by
  cases hf : findIdx needle items with
  | none => exact Or.inr (PMatch_eq_none p needle items hc hf)
  | some m =>
    rw [PMatch_eq_some p needle items m hc hf]
    by_cases hspan : m.1 = 0 ∧ m.2.1 = needle.length
    · exact Or.inl ⟨bindMatches items m.2.2 needle, by rw [if_pos hspan]⟩
    · exact Or.inr (by rw [if_neg hspan])

/-- Claim C3, amended: for a Pattern whose matcher compiles, `Match`
succeeds exactly when the engine's leftmost-first match spans offsets
0 to the needle's length; success implies the compiled expression can
match the entire needle, and when the compiled expression cannot match
the entire needle (in particular when it matches only proper
substrings), `Match` reports `ErrNoMatch`.  The converse of the second
part fails: an expression able to match the entire needle may still
get `ErrNoMatch` when the leftmost-first match is shorter. -/
theorem claim_C3_amended :
    ∀ (p : P) (items : List CItem) (needle : Str),
    compileItems p = .ok items →
    ((∃ bs, PMatch p needle = .ok bs) ↔
      (∃ m, findIdx needle items = some m ∧ m.1 = 0 ∧ m.2.1 = needle.length)) ∧
    ((∃ bs, PMatch p needle = .ok bs) → fullMatchB needle items = true) ∧
    (fullMatchB needle items = false → PMatch p needle = .error .noMatch) := by
  intro p items needle hc
  have hiff : (∃ bs, PMatch p needle = .ok bs) ↔
      (∃ m, findIdx needle items = some m ∧ m.1 = 0 ∧ m.2.1 = needle.length) := by
    constructor
    · rintro ⟨bs, hbs⟩
      cases hf : findIdx needle items with
      | none =>
        rw [PMatch_eq_none p needle items hc hf] at hbs
        simp at hbs
      | some m =>
        rw [PMatch_eq_some p needle items m hc hf] at hbs
        by_cases hspan : m.1 = 0 ∧ m.2.1 = needle.length
        · exact ⟨m, rfl, hspan⟩
        · rw [if_neg hspan] at hbs
          simp at hbs
    · rintro ⟨m, hm, hspan⟩
      rw [PMatch_eq_some p needle items m hc hm, if_pos hspan]
      exact ⟨bindMatches items m.2.2 needle, rfl⟩
  have hsound : (∃ bs, PMatch p needle = .ok bs) →
      fullMatchB needle items = true := by
    intro hok
    obtain ⟨m, hm, h0, hlen⟩ := hiff.mp hok
    have hspec := findLoop_spec needle items (needle.length + 1) 0 m hm
    obtain ⟨_, rest, hrun⟩ := hspec
    unfold fullMatchB
    rw [← h0, hrun]
    simp [hlen]
  refine ⟨hiff, hsound, ?_⟩
  intro hfull
  rcases PMatch_ok_or_noMatch p needle items hc with hok | hno
  · rw [hsound hok] at hfull
    exact absurd hfull (by simp)
  · exact hno

/-! ### Decomposition of a successful match -/

/-- An empty slice. -/
theorem slice_self (s : Str) (a : Nat) : slice s a a = [] := by
  simp [slice]

/-- The whole string as a slice. -/
theorem slice_zero_length (s : Str) : slice s 0 s.length = s := by
  simp [slice]

/-- Peeling the first character off a slice. -/
theorem slice_cons (s : Str) (pos e : Nat) (ch : Char) (d : Char)
    (hlt : pos < s.length) (hch : s.getD pos d = ch) (he : pos + 1 ≤ e) :
    slice s pos e = ch :: slice s (pos + 1) e := by
  unfold slice
  rw [List.drop_eq_getElem_cons hlt]
  have hgd : s.getD pos d = s[pos] := by
    rw [List.getD_eq_getElem?_getD, List.getElem?_eq_getElem hlt]
    simp
  rw [hgd] at hch
  subst hch
  have he2 : e - pos = (e - (pos + 1)) + 1 := by omega
  rw [he2, List.take_succ_cons]

/-- Adjacent slices concatenate. -/
theorem slice_append (s : Str) (pos m e : Nat) (h1 : pos ≤ m) (h2 : m ≤ e) :
    slice s pos m ++ slice s m e = slice s pos e := by
  unfold slice
  have hdm : s.drop m = (s.drop pos).drop (m - pos) := by
    rw [List.drop_drop]
    congr 1
    omega
  rw [hdm, ← List.take_add]
  congr 1
  omega

/-- Lookup after recording a capture span. -/
theorem capsGet?_put : ∀ (c : Caps) (i : Nat) (v : Nat × Nat) (j : Nat),
    capsGet? (capsPut c i v) j = if i = j then some v else capsGet? c j := by
  intro c
  induction c with
  | nil =>
    intro i v j
    by_cases h : i = j <;> simp [capsPut, capsGet?, h]
  | cons e rest ih =>
    intro i v j
    obtain ⟨ek, ev⟩ := e
    simp only [capsPut]
    by_cases hk : ek = i
    · subst hk
      simp only [if_pos rfl, capsGet?]
      by_cases hj : ek = j
      · subst hj; simp
      · simp [hj]
    · rw [if_neg hk]
      simp only [capsGet?]
      by_cases hj : ek = j
      · subst hj
        have : ¬ (i = ek) := fun hc => hk hc.symm
        simp [this]
      · simp [hj, ih]

/-- A match end position lies between its start and the input's end. -/
theorem exits_bound : ∀ (s : Str) (f : Nat) (r : Regex) (pos : Nat)
    (caps : Caps) (e : Nat) (c : Caps),
    (e, c) ∈ exits s f r pos caps → pos ≤ e ∧ (pos ≤ s.length → e ≤ s.length) := by
  intro s f
  induction f with
  | zero => intro r pos caps e c h; simp [exits] at h
  | succ f2 ih =>
    intro r pos caps e c h
    cases r with
    | eps =>
      simp [exits] at h
      omega
    | char ch =>
      simp only [exits] at h
      split at h
      · rename_i hcond
        simp at h
        omega
      · simp at h
    | wordC =>
      simp only [exits] at h
      split at h
      · rename_i hcond
        simp at h
        omega
      · simp at h
    | digitC =>
      simp only [exits] at h
      split at h
      · rename_i hcond
        simp at h
        omega
      · simp at h
    | dotC =>
      simp only [exits] at h
      split at h
      · rename_i hcond
        simp at h
        omega
      · simp at h
    | alt r1 r2 =>
      simp only [exits, List.mem_append] at h
      rcases h with h | h
      · exact ih r1 pos caps e c h
      · exact ih r2 pos caps e c h
    | cat r1 r2 =>
      simp only [exits, List.mem_flatMap] at h
      obtain ⟨ec, hec, h2⟩ := h
      obtain ⟨e1, c1⟩ := ec
      have hb1 := ih r1 pos caps e1 c1 hec
      have hb2 := ih r2 e1 c1 e c h2
      constructor
      · omega
      · intro hp
        exact hb2.2 (hb1.2 hp)
    | star r0 =>
      simp only [exits, List.mem_append, List.mem_flatMap] at h
      rcases h with ⟨ec, hec, h2⟩ | h
      · obtain ⟨e1, c1⟩ := ec
        have hb1 := ih r0 pos caps e1 c1 hec
        by_cases hprog : pos < e1
        · rw [if_pos hprog] at h2
          have hb2 := ih (.star r0) e1 c1 e c h2
          constructor
          · omega
          · intro hp
            exact hb2.2 (hb1.2 hp)
        · rw [if_neg hprog] at h2
          simp at h2
      · simp at h
        omega
    | grp i r0 =>
      simp only [exits, List.mem_map] at h
      obtain ⟨ec, hec, h2⟩ := h
      obtain ⟨e1, c1⟩ := ec
      have hb := ih r0 pos caps e1 c1 hec
      injection h2 with h2a h2b
      subst h2a
      exact hb

/-- Matching a regex only records captures for its own group
indexes. -/
theorem exits_frame : ∀ (s : Str) (f : Nat) (r : Regex) (pos : Nat)
    (caps : Caps) (e : Nat) (c : Caps),
    (e, c) ∈ exits s f r pos caps →
    ∀ j, j ∉ regexIdxs r → capsGet? c j = capsGet? caps j := by
  intro s f
  induction f with
  | zero => intro r pos caps e c h; simp [exits] at h
  | succ f2 ih =>
    intro r pos caps e c h j hj
    cases r with
    | eps =>
      simp [exits] at h
      rw [h.2]
    | char ch =>
      simp only [exits] at h
      split at h
      · simp at h
        rw [h.2]
      · simp at h
    | wordC =>
      simp only [exits] at h
      split at h
      · simp at h
        rw [h.2]
      · simp at h
    | digitC =>
      simp only [exits] at h
      split at h
      · simp at h
        rw [h.2]
      · simp at h
    | dotC =>
      simp only [exits] at h
      split at h
      · simp at h
        rw [h.2]
      · simp at h
    | alt r1 r2 =>
      simp only [regexIdxs, List.mem_append] at hj
      push_neg at hj
      simp only [exits, List.mem_append] at h
      rcases h with h | h
      · exact ih r1 pos caps e c h j hj.1
      · exact ih r2 pos caps e c h j hj.2
    | cat r1 r2 =>
      simp only [regexIdxs, List.mem_append] at hj
      push_neg at hj
      simp only [exits, List.mem_flatMap] at h
      obtain ⟨ec, hec, h2⟩ := h
      obtain ⟨e1, c1⟩ := ec
      rw [ih r2 e1 c1 e c h2 j hj.2, ih r1 pos caps e1 c1 hec j hj.1]
    | star r0 =>
      simp only [regexIdxs] at hj
      simp only [exits, List.mem_append, List.mem_flatMap] at h
      rcases h with ⟨ec, hec, h2⟩ | h
      · obtain ⟨e1, c1⟩ := ec
        by_cases hprog : pos < e1
        · rw [if_pos hprog] at h2
          rw [ih (.star r0) e1 c1 e c h2 j (by simpa [regexIdxs] using hj),
            ih r0 pos caps e1 c1 hec j hj]
        · rw [if_neg hprog] at h2
          simp at h2
      · simp at h
        rw [h.2]
    | grp i r0 =>
      simp only [regexIdxs, List.mem_cons] at hj
      push_neg at hj
      simp only [exits, List.mem_map] at h
      obtain ⟨ec, hec, h2⟩ := h
      obtain ⟨e1, c1⟩ := ec
      injection h2 with h2a h2b
      subst h2b
      rw [capsGet?_put]
      rw [if_neg (fun hc => hj.1 hc.symm)]
      exact ih r0 pos caps e1 c1 hec j hj.2

/-- A run of the compiled matcher only moves forward and stays within
the input. -/
theorem runItems_bound : ∀ (s : Str) (f : Nat) (items : List CItem)
    (pos : Nat) (caps : Caps) (e : Nat) (c : Caps),
    (e, c) ∈ runItems s f items pos caps →
    pos ≤ e ∧ (pos ≤ s.length → e ≤ s.length) := by
  intro s f items
  induction items with
  | nil =>
    intro pos caps e c h
    simp [runItems] at h
    omega
  | cons it rest ih =>
    intro pos caps e c h
    cases it with
    | lit ch =>
      simp only [runItems] at h
      split at h
      · rename_i hcond
        have hb := ih (pos + 1) caps e c h
        constructor
        · omega
        · intro hp
          exact hb.2 (by omega)
      · simp at h
    | grp i nm r =>
      simp only [runItems, List.mem_flatMap] at h
      obtain ⟨ec, hec, h2⟩ := h
      obtain ⟨e1, c1⟩ := ec
      have hb1 := exits_bound s f r pos caps e1 c1 hec
      have hb2 := ih e1 _ e c h2
      constructor
      · omega
      · intro hp
        exact hb2.2 (hb1.2 hp)

/-- A run of the compiled matcher only records captures for the
matcher's own group indexes. -/
theorem runItems_frame : ∀ (s : Str) (f : Nat) (items : List CItem)
    (pos : Nat) (caps : Caps) (e : Nat) (c : Caps),
    (e, c) ∈ runItems s f items pos caps →
    ∀ j, j ∉ itemsIdxs items → capsGet? c j = capsGet? caps j := by
  intro s f items
  induction items with
  | nil =>
    intro pos caps e c h j _
    simp [runItems] at h
    rw [h.2]
  | cons it rest ih =>
    intro pos caps e c h j hj
    cases it with
    | lit ch =>
      simp only [runItems] at h
      split at h
      · exact ih (pos + 1) caps e c h j
          (by simpa [itemsIdxs, itemIdxs] using hj)
      · simp at h
    | grp i nm r =>
      have hj2 : j ∉ itemIdxs (CItem.grp i nm r) ∧ j ∉ itemsIdxs rest := by
        constructor <;> intro hc <;> exact hj (by
          simp only [itemsIdxs, List.flatMap_cons, List.mem_append]
          first
          | exact Or.inl hc
          | exact Or.inr hc)
      simp only [itemIdxs, List.mem_cons] at hj2
      push_neg at hj2
      simp only [runItems, List.mem_flatMap] at h
      obtain ⟨ec, hec, h2⟩ := h
      obtain ⟨e1, c1⟩ := ec
      rw [ih e1 _ e c h2 j hj2.2]
      rw [capsGet?_put, if_neg (fun hc => hj2.1.1 hc.symm)]
      exact exits_frame s f r pos caps e1 c1 hec j hj2.1.2

/-- Postfix repetition operators introduce no new group indexes. -/
theorem pPostfix_idxs : ∀ (f : Nat) (a : Regex) (s : Str) (j : Nat),
    j ∈ regexIdxs (pPostfix f a s).1 → j ∈ regexIdxs a := by
  intro f
  induction f with
  | zero => intro a s j h; exact h
  | succ f2 ih =>
    intro a s j h
    cases s with
    | nil => exact h
    | cons c s1 =>
      by_cases h1 : c = '*'
      · rw [show pPostfix (f2 + 1) a (c :: s1) = pPostfix f2 (.star a) s1 by
          simp [pPostfix, h1]] at h
        exact ih (.star a) s1 j h
      · by_cases h2 : c = '+'
        · rw [show pPostfix (f2 + 1) a (c :: s1) =
              pPostfix f2 (.cat a (.star a)) s1 by
            simp [pPostfix, h1, h2]] at h
          have := ih (.cat a (.star a)) s1 j h
          simp only [regexIdxs, List.mem_append] at this
          rcases this with h3 | h3 <;> exact h3
        · by_cases h3 : c = '?'
          · rw [show pPostfix (f2 + 1) a (c :: s1) =
                pPostfix f2 (.alt a .eps) s1 by
              simp [pPostfix, h1, h2, h3]] at h
            have := ih (.alt a .eps) s1 j h
            simp only [regexIdxs, List.mem_append] at this
            rcases this with h4 | h4
            · exact h4
            · simp [regexIdxs] at h4
          · rw [show pPostfix (f2 + 1) a (c :: s1) = (a, c :: s1) by
              simp [pPostfix, h1, h2, h3]] at h
            exact h

/-- Unfolding: the regex reader with no fuel. -/
theorem rparse_zero (lvl : RLevel) (s : Str) (g : Nat) :
    rparse 0 lvl s g = .error (.unsupported "regex fuel") := rfl

/-- Unfolding: the alternation level of the regex reader. -/
theorem rparse_alt (f : Nat) (s : Str) (g : Nat) :
    rparse (f + 1) .alt s g = (do
      let (r1, s1, g1) ← rparse f .cat s g
      match s1 with
      | '|' :: s2 => do
        let (r2, s3, g3) ← rparse f .alt s2 g1
        pure (.alt r1 r2, s3, g3)
      | _ => pure (r1, s1, g1)) := rfl

/-- Unfolding: the concatenation level of the regex reader. -/
theorem rparse_cat (f : Nat) (s : Str) (g : Nat) :
    rparse (f + 1) .cat s g = (
      match s with
      | [] => pure (.eps, [], g)
      | ')' :: _ => pure (.eps, s, g)
      | '|' :: _ => pure (.eps, s, g)
      | _ => do
        let (a, s1, g1) ← rparse f .atom s g
        let (a2, s2) := pPostfix (f + 1) a s1
        let (r, s3, g3) ← rparse f .cat s2 g1
        pure (.cat a2 r, s3, g3)) := rfl

/-- Unfolding: the atom level of the regex reader. -/
theorem rparse_atom (f : Nat) (s : Str) (g : Nat) :
    rparse (f + 1) .atom s g = (
      match s with
      | [] => .error (.unsupported "regex atom at end")
      | '(' :: s1 => do
        let (r, s2, g2) ← rparse f .alt s1 (g + 1)
        match s2 with
        | ')' :: s3 => pure (.grp g r, s3, g2)
        | _ => .error (.unsupported "missing close paren")
      | '\\' :: c :: s1 =>
        if c = 'w' then pure (.wordC, s1, g)
        else if c = 'd' then pure (.digitC, s1, g)
        else if regexMeta c then pure (.char c, s1, g)
        else .error (.unsupported "regex escape")
      | '\\' :: [] => .error (.unsupported "trailing backslash")
      | '.' :: s1 => pure (.dotC, s1, g)
      | c :: s1 =>
        if regexMeta c then .error (.unsupported "regex metacharacter")
        else pure (.char c, s1, g)) := rfl

/-- The regex reader returns a strictly managed group-index interval:
every group index of the returned expression lies in the interval from
the starting to the returned next-free index. -/
theorem rparse_bound : ∀ (fuel : Nat) (lvl : RLevel) (s : Str) (g : Nat)
    (r : Regex) (s2 : Str) (g2 : Nat),
    rparse fuel lvl s g = .ok (r, s2, g2) →
    g ≤ g2 ∧ ∀ j ∈ regexIdxs r, g ≤ j ∧ j < g2 := by
  intro fuel
  induction fuel with
  | zero =>
    intro lvl s g r s2 g2 h
    rw [rparse_zero] at h
    simp at h
  | succ f ih =>
    intro lvl s g r s2 g2 h
    cases lvl with
    | alt =>
      rw [rparse_alt] at h
      cases hc : rparse f .cat s g with
      | error e => rw [hc, except_bind_error] at h; simp at h
      | ok v =>
        obtain ⟨r1, s1, g1⟩ := v
        rw [hc, except_bind_ok] at h
        dsimp only [] at h
        have hb1 := ih .cat s g r1 s1 g1 hc
        split at h
        · rename_i junk stail
          cases ha : rparse f .alt stail g1 with
          | error e =>
            rw [ha, except_bind_error] at h
            simp at h
          | ok v2 =>
            obtain ⟨r2, s3, g3⟩ := v2
            rw [ha, except_bind_ok] at h
            dsimp only [] at h
            have hb2 := ih .alt stail g1 r2 s3 g3 ha
            simp only [pure, Except.pure] at h
            injection h with h
            injection h with hr hrest
            injection hrest with hs hg
            subst hr hg
            refine ⟨by omega, ?_⟩
            intro j hj
            simp only [regexIdxs, List.mem_append] at hj
            rcases hj with hj | hj
            · have := hb1.2 j hj
              omega
            · have := hb2.2 j hj
              omega
        · simp only [pure, Except.pure] at h
          injection h with h
          injection h with hr hrest
          injection hrest with hs hg
          subst hr hg
          exact hb1
    | cat =>
      rw [rparse_cat] at h
      split at h
      · simp only [pure, Except.pure] at h
        injection h with h
        injection h with hr hrest
        injection hrest with hs hg
        subst hr hg
        exact ⟨le_refl _, by simp [regexIdxs]⟩
      · simp only [pure, Except.pure] at h
        injection h with h
        injection h with hr hrest
        injection hrest with hs hg
        subst hr hg
        exact ⟨le_refl _, by simp [regexIdxs]⟩
      · simp only [pure, Except.pure] at h
        injection h with h
        injection h with hr hrest
        injection hrest with hs hg
        subst hr hg
        exact ⟨le_refl _, by simp [regexIdxs]⟩
      · cases ha : rparse f .atom s g with
        | error e => rw [ha, except_bind_error] at h; simp at h
        | ok v =>
          obtain ⟨a, s1, g1⟩ := v
          rw [ha, except_bind_ok] at h
          dsimp only [] at h
          have hba := ih .atom s g a s1 g1 ha
          cases hpp : pPostfix (f + 1) a s1 with
          | mk a2 s2x =>
            rw [hpp] at h
            dsimp only [] at h
            cases hcc : rparse f .cat s2x g1 with
            | error e => rw [hcc, except_bind_error] at h; simp at h
            | ok v2 =>
              obtain ⟨rr, s3, g3⟩ := v2
              rw [hcc, except_bind_ok] at h
              dsimp only [] at h
              have hbc := ih .cat s2x g1 rr s3 g3 hcc
              simp only [pure, Except.pure] at h
              injection h with h
              injection h with hr hrest
              injection hrest with hs hg
              subst hr hg
              refine ⟨by omega, ?_⟩
              intro j hj
              simp only [regexIdxs, List.mem_append] at hj
              rcases hj with hj | hj
              · have hj2 : j ∈ regexIdxs a := by
                  have := pPostfix_idxs (f + 1) a s1 j
                  rw [hpp] at this
                  exact this hj
                have := hba.2 j hj2
                omega
              · have := hbc.2 j hj
                omega
    | atom =>
      rw [rparse_atom] at h
      split at h
      · simp at h
      · rename_i junk2 s1tail
        cases ha : rparse f .alt s1tail (g + 1) with
        | error e => rw [ha, except_bind_error] at h; simp at h
        | ok v =>
          obtain ⟨r0, s2x, g2x⟩ := v
          rw [ha, except_bind_ok] at h
          dsimp only [] at h
          have hb := ih .alt s1tail (g + 1) r0 s2x g2x ha
          split at h
          · simp only [pure, Except.pure] at h
            injection h with h
            injection h with hr hrest
            injection hrest with hs hg
            subst hr hg
            refine ⟨by omega, ?_⟩
            intro j hj
            simp only [regexIdxs, List.mem_cons] at hj
            rcases hj with hj | hj
            · omega
            · have := hb.2 j hj
              omega
          · simp at h
      · simp only [pure, Except.pure] at h
        split at h
        · injection h with h
          injection h with hr hrest
          injection hrest with hs hg
          subst hr hg
          exact ⟨le_refl _, by simp [regexIdxs]⟩
        · split at h
          · injection h with h
            injection h with hr hrest
            injection hrest with hs hg
            subst hr hg
            exact ⟨le_refl _, by simp [regexIdxs]⟩
          · split at h
            · injection h with h
              injection h with hr hrest
              injection hrest with hs hg
              subst hr hg
              exact ⟨le_refl _, by simp [regexIdxs]⟩
            · simp at h
      · simp at h
      · simp only [pure, Except.pure] at h
        injection h with h
        injection h with hr hrest
        injection hrest with hs hg
        subst hr hg
        exact ⟨le_refl _, by simp [regexIdxs]⟩
      · split at h
        · simp at h
        · simp only [pure, Except.pure] at h
          injection h with h
          injection h with hr hrest
          injection hrest with hs hg
          subst hr hg
          exact ⟨le_refl _, by simp [regexIdxs]⟩

/-- Group-index interval of a fully parsed rule expression. -/
theorem regexParse_bound (rule : Str) (g : Nat) (r : Regex) (g2 : Nat)
    (h : regexParse rule g = .ok (r, g2)) :
    g ≤ g2 ∧ ∀ j ∈ regexIdxs r, g ≤ j ∧ j < g2 := by
  unfold regexParse at h
  cases ha : rparse (2 * rule.length + 8) .alt rule g with
  | error e => rw [ha, except_bind_error] at h; simp at h
  | ok v =>
    obtain ⟨r0, rest, g2x⟩ := v
    rw [ha, except_bind_ok] at h
    dsimp only [] at h
    have hb := rparse_bound (2 * rule.length + 8) .alt rule g r0 rest g2x ha
    split at h
    · simp only [pure, Except.pure] at h
      injection h with h
      injection h with hr hg
      subst hr hg
      exact hb
    · simp at h

/-- Item indexes distribute over append. -/
theorem itemsIdxs_append (l1 l2 : List CItem) :
    itemsIdxs (l1 ++ l2) = itemsIdxs l1 ++ itemsIdxs l2 := by
  simp [itemsIdxs]

/-- Literal items carry no group indexes. -/
theorem itemsIdxs_lits (chars : Str) (tail : List CItem) :
    itemsIdxs (chars.map CItem.lit ++ tail) = itemsIdxs tail := by
  induction chars with
  | nil => rfl
  | cons c cs ih =>
    simp only [List.map_cons, List.cons_append]
    rw [show itemsIdxs (CItem.lit c :: (cs.map CItem.lit ++ tail)) =
      itemsIdxs (cs.map CItem.lit ++ tail) from rfl]
    exact ih

/-- Literal items do not affect index sanity. -/
theorem ItemsSane_lits (chars : Str) (tail : List CItem) :
    ItemsSane (chars.map CItem.lit ++ tail) ↔ ItemsSane tail := by
  induction chars with
  | nil => exact Iff.rfl
  | cons c cs ih =>
    simp only [List.map_cons, List.cons_append]
    rw [show ItemsSane (CItem.lit c :: (cs.map CItem.lit ++ tail)) =
      ItemsSane (cs.map CItem.lit ++ tail) from rfl]
    exact ih

/-- The compiler hands out group indexes from `g` upward and the
resulting matcher is index-sane. -/
theorem compileLoop_bound : ∀ (parts : List Str) (isLit : Bool) (g : Nat)
    (rules : List (Str × Str)) (items : List CItem),
    compileLoop rules parts isLit g = .ok items →
    (∀ j ∈ itemsIdxs items, g ≤ j) ∧ ItemsSane items := by
  intro parts
  induction parts with
  | nil =>
    intro isLit g rules items h
    simp [compileLoop] at h
    subst h
    exact ⟨by simp [itemsIdxs], trivial⟩
  | cons part rest ihp =>
    intro isLit g rules items h
    cases isLit with
    | true =>
      rw [compileLoop_lit] at h
      cases hr : compileLoop rules rest false g with
      | error e => rw [hr, except_bind_error] at h; simp at h
      | ok tail =>
        rw [hr, except_bind_ok] at h
        simp only [pure, Except.pure] at h
        injection h with h
        subst h
        have ihb := ihp false g rules tail hr
        constructor
        · intro j hj
          rw [itemsIdxs_lits] at hj
          exact ihb.1 j hj
        · exact (ItemsSane_lits part tail).mpr ihb.2
    | false =>
      cases hg : rulesGet? rules part with
      | none =>
        rw [compileLoop_ph_none rules part rest g hg] at h
        simp at h
      | some rule =>
        cases hx : regexParse rule (g + 1) with
        | error e =>
          rw [compileLoop_ph_err rules part rule rest g e hg hx] at h
          simp at h
        | ok v =>
          obtain ⟨r0, g2⟩ := v
          rw [compileLoop_ph_ok rules part rule rest g g2 r0 hg hx] at h
          cases hr : compileLoop rules rest true g2 with
          | error e => rw [hr, except_bind_error] at h; simp at h
          | ok tail =>
            rw [hr, except_bind_ok] at h
            simp only [pure, Except.pure] at h
            injection h with h
            subst h
            have hreg := regexParse_bound rule (g + 1) r0 g2 hx
            have ihb := ihp true g2 rules tail hr
            constructor
            · intro j hj
              simp only [itemsIdxs, List.flatMap_cons, itemIdxs,
                List.mem_append, List.mem_cons] at hj
              rcases hj with (hj | hj) | hj
              · omega
              · have := hreg.2 j hj
                omega
              · have := ihb.1 j (by simpa [itemsIdxs] using hj)
                omega
            · refine ⟨?_, ihb.2⟩
              intro hmem
              have := ihb.1 g hmem
              have := hreg.1
              omega

/-- A successful run of an index-sane matcher decomposes the spanned
slice of the input: the reconstruction from the final captures is
exactly the text between the start and end positions. -/
theorem runItems_text : ∀ (s : Str) (f : Nat) (items : List CItem)
    (pos : Nat) (caps : Caps) (e : Nat) (c : Caps),
    ItemsSane items → pos ≤ s.length →
    (e, c) ∈ runItems s f items pos caps →
    itemsText s c items = some (slice s pos e) := by
  intro s f items
  induction items with
  | nil =>
    intro pos caps e c _ _ h
    simp [runItems] at h
    rw [show itemsText s c [] = some [] from rfl, h.1, slice_self]
  | cons it rest ih =>
    intro pos caps e c hsane hposlen h
    cases it with
    | lit ch =>
      simp only [runItems] at h
      split at h
      · rename_i hcond
        have hb := runItems_bound s f rest (pos + 1) caps e c h
        have ihx := ih (pos + 1) caps e c hsane (by omega) h
        rw [show itemsText s c (CItem.lit ch :: rest) =
          (itemsText s c rest).map (ch :: ·) from rfl, ihx]
        simp only [Option.map_some']
        rw [slice_cons s pos e ch ' ' hcond.2 hcond.1 (by omega)]
      · simp at h
    | grp i nm r =>
      have hsane2 : i ∉ itemsIdxs rest ∧ ItemsSane rest := hsane
      simp only [runItems, List.mem_flatMap] at h
      obtain ⟨ec, hec, h2⟩ := h
      obtain ⟨m, c1⟩ := ec
      have hbex := exits_bound s f r pos caps m c1 hec
      have hmlen : m ≤ s.length := hbex.2 hposlen
      have hbr := runItems_bound s f rest m _ e c h2
      have ihx := ih m (capsPut c1 i (pos, m)) e c hsane2.2 hmlen h2
      have hci : capsGet? c i = some (pos, m) := by
        rw [runItems_frame s f rest m _ e c h2 i hsane2.1, capsGet?_put,
          if_pos rfl]
      rw [show itemsText s c (CItem.grp i nm r :: rest) =
        (match capsGet? c i with
         | none => none
         | some ab => (itemsText s c rest).map (slice s ab.1 ab.2 ++ ·)) from rfl]
      rw [hci, ihx]
      simp only [Option.map_some']
      rw [slice_append s pos m e hbex.1 hbr.1]

/-- Literal items contribute no bindings. -/
theorem bindMatches_lits (chars : Str) (tail : List CItem) (caps : Caps)
    (s : Str) :
    bindMatches (chars.map CItem.lit ++ tail) caps s = bindMatches tail caps s := by
  induction chars with
  | nil => rfl
  | cons c cs ih =>
    simp only [List.map_cons, List.cons_append]
    rw [show bindMatches (CItem.lit c :: (cs.map CItem.lit ++ tail)) caps s =
      bindMatches (cs.map CItem.lit ++ tail) caps s from rfl]
    exact ih

/-- The nameless groups recorded for a rule's inner parentheses are all
skipped by `bindMatches`. -/
theorem bindMatches_unnamed (caps : Caps) (s : Str) (idxs : List Nat)
    (l : List (Nat × Str)) :
    ((idxs.map fun j => (j, ([] : Str))) ++ l).filterMap (fun g =>
      if g.2 = [] then none
      else (capsGet? caps g.1).map fun ab => (⟨g.2, slice s ab.1 ab.2⟩ : Bind)) =
    l.filterMap (fun g =>
      if g.2 = [] then none
      else (capsGet? caps g.1).map fun ab => (⟨g.2, slice s ab.1 ab.2⟩ : Bind)) := by
  induction idxs with
  | nil => rfl
  | cons j rest ih =>
    exact ih

/-- A named group with a recorded capture contributes its binding in
front of those of the remaining items. -/
theorem bindMatches_grp (i : Nat) (nm : Str) (r : Regex) (tail : List CItem)
    (caps : Caps) (s : Str) (a b : Nat)
    (hnm : nm ≠ []) (hci : capsGet? caps i = some (a, b)) :
    bindMatches (CItem.grp i nm r :: tail) caps s =
      ⟨nm, slice s a b⟩ :: bindMatches tail caps s := by
  unfold bindMatches
  rw [show itemsGroups (CItem.grp i nm r :: tail) =
    (i, nm) :: ((regexIdxs r).map (fun j => (j, [])) ++ itemsGroups tail)
    from rfl]
  rw [List.filterMap_cons, bindMatches_unnamed]
  simp [hnm, hci]

/-- The per-name queues distribute over appended binding lists. -/
theorem subOf_append (l1 l2 : List Bind) (n : Str) :
    subOf (l1 ++ l2) n = subOf l1 n ++ subOf l2 n := by
  simp [subOf]

/-- A binding for the queried name heads its queue. -/
theorem subOf_cons_self (n v : Str) (l : List Bind) :
    subOf (⟨n, v⟩ :: l) n = v :: subOf l n := by
  simp [subOf]

/-- The queue drawn from a single binding. -/
theorem subOf_singleton (m v n : Str) :
    subOf [⟨m, v⟩] n = if m = n then [v] else [] := by
  by_cases h : m = n <;> simp [subOf, h]

/-- Indexing an appended list right at the length of the prefix. -/
theorem getD_append_length (l1 : List Str) (x : Str) (l2 : List Str)
    (d : Str) : (l1 ++ x :: l2).getD l1.length d = x := by
  induction l1 with
  | nil => rfl
  | cons y t ih => simpa using ih

/-- Text reconstruction over a run of literal items. -/
theorem itemsText_lits (s : Str) (caps : Caps) (chars : Str)
    (tail : List CItem) :
    itemsText s caps (chars.map CItem.lit ++ tail) =
      (itemsText s caps tail).map (chars ++ ·) := by
  induction chars with
  | nil => cases h : itemsText s caps tail <;> simp [h]
  | cons c cs ih =>
    simp only [List.map_cons, List.cons_append]
    rw [show itemsText s caps (CItem.lit c :: (cs.map CItem.lit ++ tail)) =
      (itemsText s caps (cs.map CItem.lit ++ tail)).map (c :: ·) from rfl, ih]
    cases h : itemsText s caps tail <;> simp [h]

/-- Rendering a compiled template against the bindings extracted from
its own captures reproduces the captured text: if the items compiled
from `parts`, every placeholder name is nonempty, and the captures
reconstruct to `out`, then the occurrence-indexed rendering of `parts`
over the extracted bindings (appended after an already-consumed
prefix) yields exactly `out`. -/
theorem applyIdx_of_itemsText : ∀ (parts : List Str) (isLit : Bool) (g : Nat)
    (rules : List (Str × Str)) (items : List CItem) (s : Str) (caps : Caps)
    (bsPre : List Bind) (occ : Str → Nat) (out : Str),
    compileLoop rules parts isLit g = .ok items →
    (∀ n ∈ phNames parts isLit, n ≠ []) →
    itemsText s caps items = some out →
    (∀ n, occ n = (subOf bsPre n).length) →
    applyIdx parts occ (bsPre ++ bindMatches items caps s) isLit = .ok out := by
  intro parts
  induction parts with
  | nil =>
    intro isLit g rules items s caps bsPre occ out hc _ ht _
    simp [compileLoop] at hc
    subst hc
    rw [show itemsText s caps [] = some [] from rfl] at ht
    injection ht with ht
    subst ht
    rfl
  | cons part rest ihp =>
    intro isLit g rules items s caps bsPre occ out hc hnm ht hocc
    cases isLit with
    | true =>
      rw [compileLoop_lit] at hc
      cases hr : compileLoop rules rest false g with
      | error e => rw [hr, except_bind_error] at hc; simp at hc
      | ok tail =>
        rw [hr, except_bind_ok] at hc
        simp only [pure, Except.pure] at hc
        injection hc with hc
        subst hc
        rw [itemsText_lits] at ht
        cases ht2 : itemsText s caps tail with
        | none => rw [ht2] at ht; simp at ht
        | some out2 =>
          rw [ht2, Option.map_some'] at ht
          injection ht with ht
          subst ht
          rw [bindMatches_lits, applyIdx_lit,
            ihp false g rules tail s caps bsPre occ out2 hr
              (by intro n hn; exact hnm n hn) ht2 hocc]
          rfl
    | false =>
      cases hg : rulesGet? rules part with
      | none => rw [compileLoop_ph_none rules part rest g hg] at hc; simp at hc
      | some rule =>
        cases hx : regexParse rule (g + 1) with
        | error e =>
          rw [compileLoop_ph_err rules part rule rest g e hg hx] at hc
          simp at hc
        | ok v =>
          obtain ⟨r0, g2⟩ := v
          rw [compileLoop_ph_ok rules part rule rest g g2 r0 hg hx] at hc
          cases hr : compileLoop rules rest true g2 with
          | error e => rw [hr, except_bind_error] at hc; simp at hc
          | ok tail =>
            rw [hr, except_bind_ok] at hc
            simp only [pure, Except.pure] at hc
            injection hc with hc
            subst hc
            have hpart : part ≠ [] := hnm part (by
              rw [show phNames (part :: rest) false =
                part :: phNames rest true from rfl]
              exact List.mem_cons_self part _)
            rw [show itemsText s caps (CItem.grp g part r0 :: tail) =
              (match capsGet? caps g with
               | none => none
               | some ab =>
                 (itemsText s caps tail).map (slice s ab.1 ab.2 ++ ·))
              from rfl] at ht
            cases hci : capsGet? caps g with
            | none => rw [hci] at ht; simp at ht
            | some ab =>
              obtain ⟨a, b⟩ := ab
              rw [hci] at ht
              dsimp only [] at ht
              cases ht2 : itemsText s caps tail with
              | none => rw [ht2] at ht; simp at ht
              | some out2 =>
                rw [ht2, Option.map_some'] at ht
                injection ht with ht
                subst ht
                rw [bindMatches_grp g part r0 tail caps s a b hpart hci]
                have hsub : subOf
                    (bsPre ++ ⟨part, slice s a b⟩ :: bindMatches tail caps s)
                    part =
                    subOf bsPre part ++
                      slice s a b :: subOf (bindMatches tail caps s) part := by
                  rw [subOf_append, subOf_cons_self]
                have hne : (subOf
                    (bsPre ++ ⟨part, slice s a b⟩ :: bindMatches tail caps s)
                    part).isEmpty = false := by
                  rw [hsub]
                  simp [List.isEmpty_iff]
                rw [applyIdx_ph part rest occ _ hne]
                have hk := hocc part
                have hV : (subOf
                    (bsPre ++ ⟨part, slice s a b⟩ :: bindMatches tail caps s)
                    part).getD
                    (min (occ part) ((subOf
                      (bsPre ++ ⟨part, slice s a b⟩ ::
                        bindMatches tail caps s) part).length - 1)) [] =
                    slice s a b := by
                  rw [hsub]
                  have hmin : min (occ part)
                      ((subOf bsPre part ++ slice s a b ::
                        subOf (bindMatches tail caps s) part).length - 1) =
                      (subOf bsPre part).length := by
                    simp only [List.length_append, List.length_cons]
                    omega
                  rw [hmin, getD_append_length]
                rw [hV]
                have hbind2 : bsPre ++ ⟨part, slice s a b⟩ ::
                    bindMatches tail caps s =
                    (bsPre ++ [⟨part, slice s a b⟩]) ++
                      bindMatches tail caps s := by
                  rw [List.append_assoc]
                  rfl
                rw [hbind2]
                have hrec := ihp true g2 rules tail s caps
                  (bsPre ++ [⟨part, slice s a b⟩])
                  (fun n => if n = part then occ part + 1 else occ n) out2 hr
                  (by intro n hn; exact hnm n (List.mem_cons_of_mem part hn))
                  ht2
                  (by
                    intro n
                    dsimp only []
                    rw [subOf_append, subOf_singleton]
                    by_cases hn : n = part
                    · subst hn
                      rw [if_pos rfl, if_pos rfl]
                      simp [hocc n]
                    · rw [if_neg hn, if_neg (fun hq => hn hq.symm)]
                      simp [hocc n])
                rw [hrec]
                rfl

/-- Witness for the amended claim C3: the pattern for the bare literal
template `a` compiles to a single literal item; its expression cannot
match the entire needle `b`, and `Match` reports `ErrNoMatch` there. -/
theorem claim_C3_amended_witness :
    PMatch (P.mk [lc "a"] (lc "a") []) (lc "b") = .error .noMatch :=
  (claim_C3_amended (P.mk [lc "a"] (lc "a") []) [CItem.lit 'a'] (lc "b")
    (by decide)).2.2 (by decide)

/-- C8: for every pattern whose placeholder names are nonempty (as the
template grammar and the engine's group-name syntax guarantee for any
pattern built by `Parse` or `Derive`), whenever `Match` succeeds on a
needle and returns bindings, `Apply` of those bindings succeeds and
returns exactly the needle. -/
theorem claim_C8 (p : P) (s : Str) (bs : List Bind)
    (hnames : ∀ n ∈ oddParts p.parts, n ≠ [])
    (h : PMatch p s = .ok bs) : PApply p bs = .ok s := by
  cases hc : compileItems p with
  | error e => rw [PMatch_eq_error p s e hc] at h; simp at h
  | ok items =>
    cases hf : findIdx s items with
    | none => rw [PMatch_eq_none p s items hc hf] at h; simp at h
    | some m =>
      rw [PMatch_eq_some p s items m hc hf] at h
      by_cases hspan : m.1 = 0 ∧ m.2.1 = s.length
      · rw [if_pos hspan] at h
        injection h with h
        subst h
        have hspec := findLoop_spec s items (s.length + 1) 0 m hf
        obtain ⟨rest0, hrun⟩ := hspec.2
        have hmem : (m.2.1, m.2.2) ∈
            runItems s (stdFuel s items) items m.1 [] := by
          rw [hrun]
          exact List.mem_cons_self _ _
        have hcl : compileLoop p.rules p.parts true 1 = .ok items := hc
        have hbound := compileLoop_bound p.parts true 1 p.rules items hcl
        have hpos : m.1 ≤ s.length := by rw [hspan.1]; omega
        have htext := runItems_text s (stdFuel s items) items m.1 []
          m.2.1 m.2.2 hbound.2 hpos hmem
        rw [hspan.1, hspan.2, slice_zero_length] at htext
        have hnm2 : ∀ n ∈ phNames p.parts true, n ≠ [] := by
          intro n hn
          exact hnames n (by rw [← (phNames_odd p.parts).1]; exact hn)
        have happ := applyIdx_of_itemsText p.parts true 1 p.rules items s
          m.2.2 [] (fun _ => 0) s hcl hnm2 htext (by intro n; simp [subOf])
        rw [List.nil_append] at happ
        unfold PApply
        rw [applyLoop_eq_applyIdx p.parts (bindMatches items m.2.2 s)
          (subOf (bindMatches items m.2.2 s)) (fun _ => 0) true
          (by intro n; simp)]
        exact happ
      · rw [if_neg hspan] at h
        simp at h

/-- Witness for C8 at the pattern `a${x}b` with rule `x ↦ c|d`:
matching the needle `acb` binds `x` to `c`, and applying that binding
reproduces `acb`. -/
theorem claim_C8_witness :
    PApply (P.mk [lc "a", lc "x", lc "b"] (lc "a${x}b") [(lc "x", lc "c|d")])
      [⟨lc "x", lc "c"⟩] = .ok (lc "acb") :=
  claim_C8 (P.mk [lc "a", lc "x", lc "b"] (lc "a${x}b") [(lc "x", lc "c|d")])
    (lc "acb") [⟨lc "x", lc "c"⟩] (by decide) (by decide)

end PatternPkg
